import Mathlib

/-!
Verification development for the single-symbol trading runtime
(`src/core/*.py`, `src/execution/*.py`, `src/analysis/metrics.py`).

The Python source is shallowly embedded: prices and balances are modelled
as exact rationals (`ℚ`), timestamps as minutes since a Monday-00:00 UTC
epoch (`Nat`), Python `None`-returning / raising code as `Option`-valued
functions.  Definitions follow the structure of the source functions they
embed; their doc comments name the corresponding Python symbol.
-/

namespace Jesse

/-! ## Core types (`src/core/types.py`) -/

/-- `Literal["long", "short"]` — the side of a position. -/
inductive Side
  | long
  | short
deriving DecidableEq

/-- `Literal["long", "short", "close"]` — the direction of a `Signal`. -/
inductive Direction
  | long
  | short
  | close
deriving DecidableEq

/-- `Literal["stop_loss", "take_profit"]` — `ExitReason` in `sl_tp.py`. -/
inductive ExitReason
  | stop_loss
  | take_profit
deriving DecidableEq

/-- `Literal["stop_loss", "take_profit", "signal"]` — `Trade.exit_reason`. -/
inductive CloseReason
  | stop_loss
  | take_profit
  | signal
deriving DecidableEq

/-- `Candle` — OHLCV candle with optional orderflow data.
`open` is a Lean keyword, hence the field name `open_`. -/
structure Candle where
  timestamp : Nat
  open_ : ℚ
  high : ℚ
  low : ℚ
  close : ℚ
  volume : ℚ
  open_interest : ℚ := 0
  cvd : ℚ := 0
deriving DecidableEq

/-- `Signal` — trading signal emitted by a strategy. -/
structure Signal where
  direction : Direction
  size_percent : Option ℚ := none
  stop_loss : Option ℚ := none
  take_profit : Option ℚ := none
  position_id : Option String := none
deriving DecidableEq

/-- `Position` — an open position tracked by the portfolio. -/
structure Position where
  id : String
  side : Side
  entry_price : ℚ
  entry_time : Nat
  size : ℚ
  size_usd : ℚ
  stop_loss : ℚ
  take_profit : ℚ
deriving DecidableEq

/-- `Position.unrealized_pnl` — unrealized PnL at the given market price. -/
def Position.unrealized_pnl (p : Position) (current_price : ℚ) : ℚ :=
  match p.side with
  | .long => (current_price - p.entry_price) * p.size
  | .short => (p.entry_price - current_price) * p.size

/-- `Trade` — a closed position (completed trade). -/
structure Trade where
  id : String
  side : Side
  entry_price : ℚ
  exit_price : ℚ
  entry_time : Nat
  exit_time : Nat
  size : ℚ
  size_usd : ℚ
  pnl : ℚ
  pnl_percent : ℚ
  exit_reason : CloseReason
deriving DecidableEq

/-! ## Timeframes (`src/core/timeframe.py`) -/

/-- The closed set of timeframe labels `TIMEFRAME_ORDER`. -/
inductive Tf
  | m1
  | m5
  | m15
  | h1
  | h4
  | d1
  | w1
deriving DecidableEq

/-- `_TF_MINUTES` / `get_timeframe_minutes`. -/
def Tf.minutes : Tf → Nat
  | .m1 => 1
  | .m5 => 5
  | .m15 => 15
  | .h1 => 60
  | .h4 => 240
  | .d1 => 1440
  | .w1 => 10080

/-- Position of a timeframe in `TIMEFRAME_ORDER` (lowest resolution first). -/
def Tf.idx : Tf → Nat
  | .m1 => 0
  | .m5 => 1
  | .m15 => 2
  | .h1 => 3
  | .h4 => 4
  | .d1 => 5
  | .w1 => 6

/-- The timeframe sitting at a given index of `TIMEFRAME_ORDER`. -/
def tfOfIdx : Nat → Tf
  | 0 => .m1
  | 1 => .m5
  | 2 => .m15
  | 3 => .h1
  | 4 => .h4
  | 5 => .d1
  | _ => .w1

/-- `get_lower_timeframe` — next lower timeframe, `none` at 1m. -/
def get_lower_timeframe : Tf → Option Tf
  | .m1 => none
  | .m5 => some .m1
  | .m15 => some .m5
  | .h1 => some .m15
  | .h4 => some .h1
  | .d1 => some .h4
  | .w1 => some .d1

theorem get_lower_timeframe_idx {tf ltf : Tf}
    (h : get_lower_timeframe tf = some ltf) :
    tf.idx = ltf.idx + 1 ∧ tfOfIdx ltf.idx = ltf := by
  cases tf <;> simp_all [get_lower_timeframe, Tf.idx, tfOfIdx] <;>
    cases h <;> simp [Tf.idx, tfOfIdx]

/-! ## SL/TP monitor (`src/execution/sl_tp.py`) -/

/-- `SLTPMonitor._sl_hit` — is the stop-loss hit by this candle? -/
def sl_hit (p : Position) (c : Candle) : Bool :=
  match p.side with
  | .long => decide (c.low ≤ p.stop_loss)
  | .short => decide (c.high ≥ p.stop_loss)

/-- `SLTPMonitor._tp_hit` — is the take-profit hit by this candle? -/
def tp_hit (p : Position) (c : Candle) : Bool :=
  match p.side with
  | .long => decide (c.high ≥ p.take_profit)
  | .short => decide (c.low ≤ p.take_profit)

/-- First non-`None` result of the `for sub_candle in sub_candles` loop in
`SLTPMonitor._resolve_recursive`. -/
def firstSome {α : Type} : List (Option α) → Option α
  | [] => none
  | some r :: _ => some r
  | none :: rest => firstSome rest

/-- `SLTPMonitor._resolve_recursive`, indexed by the position of the current
timeframe in `TIMEFRAME_ORDER` (the source recurses along
`get_lower_timeframe`, which steps this index down by one; index 0 is 1m).
`avail` is the caller-supplied `available_candles` dict, with the source's
`available_candles.get(next_tf, [])` default. -/
def resolveIdx (p : Position) (avail : Tf → List Candle) :
    Nat → Candle → Option ExitReason
  | 0 => fun c =>
      if sl_hit p c && tp_hit p c then
        -- at 1m, `get_lower_timeframe` is `None`: conservative fallback
        some .stop_loss
      else if sl_hit p c then some .stop_loss
      else if tp_hit p c then some .take_profit
      else none
  | n + 1 => fun c =>
      if sl_hit p c && tp_hit p c then
        match avail (tfOfIdx n) with
        | [] => some .stop_loss
        | sub :: subs =>
            match firstSome ((sub :: subs).map (resolveIdx p avail n)) with
            | some r => some r
            | none => some .stop_loss
      else if sl_hit p c then some .stop_loss
      else if tp_hit p c then some .take_profit
      else none

/-- `SLTPMonitor._resolve_recursive` at a named timeframe. -/
def resolve_recursive (p : Position) (avail : Tf → List Candle)
    (tf : Tf) (c : Candle) : Option ExitReason :=
  resolveIdx p avail tf.idx c

/-- `SLTPMonitor.resolve` — drill-down resolution with the final
conservative fallback. -/
def resolve (p : Position) (c : Candle) (avail : Tf → List Candle)
    (tf : Tf) : ExitReason :=
  match resolve_recursive p avail tf c with
  | some r => r
  | none => .stop_loss

/-- `SLTPMonitor.check` — single-call API.  `avail = none` models the call
with `available_candles=None`. -/
def check (p : Position) (c : Candle) (avail : Option (Tf → List Candle))
    (tf : Tf) : Option ExitReason :=
  if sl_hit p c && tp_hit p c then
    match avail with
    | some m => some (resolve p c m tf)
    | none => some .stop_loss
  else if sl_hit p c then some .stop_loss
  else if tp_hit p c then some .take_profit
  else none

/-- C1: `SLTPMonitor.check` applies the single-candle rule (long:
SL hit iff `low ≤ stop_loss`, TP hit iff `high ≥ take_profit`; short:
SL hit iff `high ≥ stop_loss`, TP hit iff `low ≤ take_profit`); if exactly
one level is hit it returns that exit, if neither it returns `none`, and if
both are hit it drills down into the caller-supplied next-lower-timeframe
sub-candles in order, recursing on a sub-candle that again hits both, and
returns `stop_loss` conservatively at the 1m level, when no drill-down data
is supplied or available, or when no sub-candle hits either level. -/
theorem C1_sl_tp_monitor_check (p : Position) (c : Candle)
    (avail : Tf → List Candle) (m : Option (Tf → List Candle)) (tf : Tf) :
    (p.side = .long →
       ((sl_hit p c = true ↔ c.low ≤ p.stop_loss) ∧
        (tp_hit p c = true ↔ c.high ≥ p.take_profit))) ∧
    (p.side = .short →
       ((sl_hit p c = true ↔ c.high ≥ p.stop_loss) ∧
        (tp_hit p c = true ↔ c.low ≤ p.take_profit))) ∧
    (sl_hit p c = true → tp_hit p c = false →
       check p c m tf = some .stop_loss) ∧
    (tp_hit p c = true → sl_hit p c = false →
       check p c m tf = some .take_profit) ∧
    (sl_hit p c = false → tp_hit p c = false → check p c m tf = none) ∧
    (sl_hit p c = true → tp_hit p c = true →
       check p c none tf = some .stop_loss) ∧
    (sl_hit p c = true → tp_hit p c = true →
       check p c (some avail) tf = some (resolve p c avail tf)) ∧
    (resolve p c avail tf = (resolve_recursive p avail tf c).getD .stop_loss) ∧
    (sl_hit p c = true → tp_hit p c = true → get_lower_timeframe tf = none →
       resolve_recursive p avail tf c = some .stop_loss) ∧
    (∀ ltf, sl_hit p c = true → tp_hit p c = true →
       get_lower_timeframe tf = some ltf → avail ltf = [] →
       resolve_recursive p avail tf c = some .stop_loss) ∧
    (∀ ltf, sl_hit p c = true → tp_hit p c = true →
       get_lower_timeframe tf = some ltf → avail ltf ≠ [] →
       resolve_recursive p avail tf c =
         some ((firstSome
           ((avail ltf).map (resolve_recursive p avail ltf))).getD
             .stop_loss)) ∧
    (sl_hit p c = true → tp_hit p c = false →
       resolve_recursive p avail tf c = some .stop_loss) ∧
    (tp_hit p c = true → sl_hit p c = false →
       resolve_recursive p avail tf c = some .take_profit) ∧
    (sl_hit p c = false → tp_hit p c = false →
       resolve_recursive p avail tf c = none) := by
  refine ⟨?_, ?_, ?_, ?_, ?_, ?_, ?_, ?_, ?_, ?_, ?_, ?_, ?_, ?_⟩
  · intro hs
    constructor <;> simp [sl_hit, tp_hit, hs, ge_iff_le]
  · intro hs
    constructor <;> simp [sl_hit, tp_hit, hs, ge_iff_le]
  · intro h1 h2; simp [check, h1, h2]
  · intro h1 h2; simp [check, h1, h2]
  · intro h1 h2; simp [check, h1, h2]
  · intro h1 h2; simp [check, h1, h2]
  · intro h1 h2; simp [check, h1, h2]
  · cases h : resolve_recursive p avail tf c <;>
      simp [resolve, h, Option.getD]
  · intro h1 h2 h3
    have htf : tf = .m1 := by
      cases tf <;> simp_all [get_lower_timeframe]
    subst htf
    simp [resolve_recursive, Tf.idx, resolveIdx, h1, h2]
  · intro ltf h1 h2 h3 h4
    obtain ⟨hi, hof⟩ := get_lower_timeframe_idx h3
    rw [resolve_recursive, hi]
    simp [resolveIdx, h1, h2, hof, h4]
  · intro ltf h1 h2 h3 h4
    obtain ⟨hi, hof⟩ := get_lower_timeframe_idx h3
    rw [resolve_recursive, hi]
    rcases hsub : avail ltf with _ | ⟨sc, subs⟩
    · exact absurd hsub h4
    · simp only [resolveIdx, h1, h2, Bool.and_self, if_pos, hof, hsub]
      have : resolve_recursive p avail ltf = resolveIdx p avail ltf.idx := by
        funext x; rfl
      rw [this]
      cases hfs : firstSome ((sc :: subs).map (resolveIdx p avail ltf.idx)) <;>
        simp [hfs, Option.getD]
  · intro h1 h2
    cases tf <;> simp [resolve_recursive, Tf.idx, resolveIdx, h1, h2]
  · intro h1 h2
    cases tf <;> simp [resolve_recursive, Tf.idx, resolveIdx, h1, h2]
  · intro h1 h2
    cases tf <;> simp [resolve_recursive, Tf.idx, resolveIdx, h1, h2]

/-- Concrete long position for the C1 witness (SL 95, TP 108). -/
def c1posW : Position := ⟨"p1", .long, 100, 0, 1, 100, 95, 108⟩

/-- 4h candle hitting both SL and TP (low 94, high 109). -/
def c1candleW : Candle := ⟨0, 100, 109, 94, 100, 1, 0, 0⟩

/-- 1h sub-candle hitting only TP (low 96, high 109). -/
def c1subW : Candle := ⟨239, 100, 109, 96, 100, 1, 0, 0⟩

/-- Drill-down data: one 1h sub-candle, nothing elsewhere. -/
def c1availW : Tf → List Candle :=
  fun tf => if tf = .h1 then [c1subW] else []

/-- C1 witness: on the both-hit 4h candle, `check` drills down into the 1h
sub-candle and returns `take_profit`. -/
theorem C1_witness :
    sl_hit c1posW c1candleW = true ∧ tp_hit c1posW c1candleW = true ∧
    check c1posW c1candleW (some c1availW) Tf.h4 =
      some ExitReason.take_profit := by
  have h := C1_sl_tp_monitor_check c1posW c1candleW c1availW
    (some c1availW) Tf.h4
  refine ⟨by decide, by decide, ?_⟩
  have h7 := h.2.2.2.2.2.2.1 (by decide) (by decide)
  rw [h7]
  decide

/-! ## Portfolio (`src/core/portfolio.py`) -/

/-- `Portfolio` — open positions, closed trades, and account balance.
`current_price` embeds the `_current_price` field (default `0.0`). -/
structure Portfolio where
  initial_balance : ℚ
  balance : ℚ
  positions : List Position := []
  trades : List Trade := []
  current_price : ℚ := 0
deriving DecidableEq

/-- `Portfolio(initial_balance=ib)` with `__post_init__` defaulting
`balance` to `initial_balance`. -/
def Portfolio.fresh (ib : ℚ) : Portfolio :=
  { initial_balance := ib, balance := ib }

/-- `Portfolio.update_price`. -/
def Portfolio.update_price (pf : Portfolio) (price : ℚ) : Portfolio :=
  { pf with current_price := price }

/-- `Portfolio.equity` — balance plus unrealized PnL of open positions. -/
def Portfolio.equity (pf : Portfolio) : ℚ :=
  pf.balance + (pf.positions.map (fun p => p.unrealized_pnl pf.current_price)).sum

/-- `Portfolio.get_position`. -/
def Portfolio.get_position (pf : Portfolio) (position_id : String) :
    Option Position :=
  pf.positions.find? (fun p => p.id == position_id)

/-- `Portfolio.open_position` — append the position, lock its notional. -/
def Portfolio.open_position (pf : Portfolio) (p : Position) : Portfolio :=
  { pf with positions := pf.positions ++ [p],
            balance := pf.balance - p.size_usd }

/-- `Portfolio.close_position` — drop positions carrying the id, append the
trade, credit `size_usd + pnl`; `none` models the `ValueError` raised when
no position matches. -/
def Portfolio.close_position (pf : Portfolio) (position_id : String)
    (t : Trade) : Option Portfolio :=
  let remaining := pf.positions.filter (fun p => p.id != position_id)
  if remaining.length = pf.positions.length then none
  else some { pf with positions := remaining,
                      trades := pf.trades ++ [t],
                      balance := pf.balance + t.size_usd + t.pnl }

/-- A portfolio mutation: `open_position` or `close_position`. -/
inductive PortfolioOp
  | openOp (p : Position)
  | closeOp (position_id : String) (t : Trade)

/-- Run a sequence of portfolio mutations; a failing close aborts the run
(the Python call would raise). -/
def runOps : Portfolio → List PortfolioOp → Option Portfolio
  | pf, [] => some pf
  | pf, .openOp p :: rest => runOps (pf.open_position p) rest
  | pf, .closeOp i t :: rest =>
      match pf.close_position i t with
      | some pf2 => runOps pf2 rest
      | none => none

/-- The side condition of claim C2: each close names exactly one open
position and is given the trade built from it, so `t.size_usd` equals that
position's `size_usd`. -/
def validOps : Portfolio → List PortfolioOp → Bool
  | _, [] => true
  | pf, .openOp p :: rest => validOps (pf.open_position p) rest
  | pf, .closeOp i t :: rest =>
      match pf.positions.filter (fun p => p.id == i) with
      | [q] =>
          t.size_usd == q.size_usd &&
            (match pf.close_position i t with
             | some pf2 => validOps pf2 rest
             | none => false)
      | _ => false

/-- Total `size_usd` deducted by the `open_position` calls of a sequence. -/
def sumOpens : List PortfolioOp → ℚ
  | [] => 0
  | .openOp p :: rest => p.size_usd + sumOpens rest
  | .closeOp _ _ :: rest => sumOpens rest

/-- Total `size_usd + pnl` credited by the `close_position` calls. -/
def sumCloses : List PortfolioOp → ℚ
  | [] => 0
  | .openOp _ :: rest => sumCloses rest
  | .closeOp _ t :: rest => t.size_usd + t.pnl + sumCloses rest

/-- Notional locked in the currently open positions. -/
def Portfolio.locked (pf : Portfolio) : ℚ :=
  (pf.positions.map (fun p => p.size_usd)).sum

/-- Realized PnL of the closed trades. -/
def Portfolio.realized (pf : Portfolio) : ℚ :=
  (pf.trades.map (fun t => t.pnl)).sum

theorem sum_map_filter_add (f : Position → ℚ) (q : Position → Bool) :
    ∀ l : List Position,
      ((l.filter q).map f).sum + ((l.filter (fun p => !q p)).map f).sum =
        (l.map f).sum := by
  intro l
  induction l with
  | nil => simp
  | cons x xs ih =>
      cases hq : q x <;> simp [List.filter_cons, hq, ← ih] <;> ring

theorem runOps_balance :
    ∀ (ops : List PortfolioOp) (pf0 pf : Portfolio),
      runOps pf0 ops = some pf →
      pf.balance = pf0.balance - sumOpens ops + sumCloses ops ∧
      pf.initial_balance = pf0.initial_balance := by
  intro ops
  induction ops with
  | nil =>
      intro pf0 pf h
      cases h
      simp [sumOpens, sumCloses]
  | cons op rest ih =>
      intro pf0 pf h
      cases op with
      | openOp p =>
          obtain ⟨h1, h2⟩ := ih (pf0.open_position p) pf h
          refine ⟨?_, by simpa [Portfolio.open_position] using h2⟩
          rw [h1]
          simp [Portfolio.open_position, sumOpens, sumCloses]
          ring
      | closeOp i t =>
          rw [runOps] at h
          rcases hc : pf0.close_position i t with _ | pf1
          · rw [hc] at h; cases h
          · rw [hc] at h
            obtain ⟨h1, h2⟩ := ih pf1 pf h
            rw [Portfolio.close_position] at hc
            by_cases hlen :
                (pf0.positions.filter (fun p => p.id != i)).length =
                  pf0.positions.length
            · simp [hlen] at hc
            · simp only [hlen, if_false] at hc
              cases hc
              refine ⟨?_, by simpa using h2⟩
              rw [h1]
              simp [sumOpens, sumCloses]
              ring

/-- The conservation invariant of claim C2. -/
def conserved (pf : Portfolio) : Prop :=
  pf.balance + pf.locked = pf.initial_balance + pf.realized

theorem open_position_conserved (pf : Portfolio) (p : Position)
    (h : conserved pf) : conserved (pf.open_position p) := by
  simp only [conserved, Portfolio.open_position, Portfolio.locked,
    Portfolio.realized] at h ⊢
  simp only [List.map_append, List.sum_append, List.map_cons, List.map_nil,
    List.sum_cons, List.sum_nil]
  linarith

theorem close_position_conserved (pf pf2 : Portfolio) (i : String)
    (t : Trade) (q : Position)
    (hq : pf.positions.filter (fun p => p.id == i) = [q])
    (hsz : t.size_usd = q.size_usd)
    (hc : pf.close_position i t = some pf2)
    (h : conserved pf) : conserved pf2 := by
  rw [Portfolio.close_position] at hc
  by_cases hlen :
      (pf.positions.filter (fun p => p.id != i)).length =
        pf.positions.length
  · simp [hlen] at hc
  · simp only [hlen, if_false] at hc
    cases hc
    simp only [conserved, Portfolio.locked, Portfolio.realized] at h ⊢
    have hsplit := sum_map_filter_add (fun p => p.size_usd)
      (fun p => p.id == i) pf.positions
    have hfneg :
        pf.positions.filter (fun p => p.id != i) =
          pf.positions.filter (fun p => !(p.id == i)) := by
      apply List.filter_congr
      intro x _
      simp [bne]
    rw [hq] at hsplit
    simp only [List.map_cons, List.map_nil, List.sum_cons, List.sum_nil,
      List.map_append, List.sum_append] at hsplit ⊢
    rw [hfneg]
    linarith

theorem runOps_conserved :
    ∀ (ops : List PortfolioOp) (pf0 pf : Portfolio),
      validOps pf0 ops = true →
      runOps pf0 ops = some pf →
      conserved pf0 → conserved pf := by
  intro ops
  induction ops with
  | nil =>
      intro pf0 pf _ h hc
      cases h
      exact hc
  | cons op rest ih =>
      intro pf0 pf hv h hc
      cases op with
      | openOp p =>
          exact ih (pf0.open_position p) pf hv h
            (open_position_conserved pf0 p hc)
      | closeOp i t =>
          rw [validOps] at hv
          rcases hfil : pf0.positions.filter (fun p => p.id == i) with
            _ | ⟨q, qs⟩
          · rw [hfil] at hv; cases hv
          · rcases qs with _ | ⟨q2, qs2⟩
            · rw [hfil] at hv
              rcases hcl : pf0.close_position i t with _ | pf1
              · rw [hcl] at hv; simp at hv
              · rw [hcl] at hv
                simp only [Bool.and_eq_true, beq_iff_eq] at hv
                rw [runOps, hcl] at h
                exact ih pf1 pf hv.2 h
                  (close_position_conserved pf0 pf1 i t q hfil hv.1 hcl hc)
            · rw [hfil] at hv; cases hv

/-- C2: starting from a fresh portfolio, for every operation sequence in
which each `close_position` is given the trade built from the single
position being closed (`trade.size_usd` equals that position's
`size_usd`), money is conserved modulo realized PnL: the final balance is
`initial_balance − Σ size_usd(opens) + Σ (size_usd + pnl)(closes)`, and —
equivalently, at every moment between operations — free cash plus the
notional locked in open positions equals `initial_balance` plus the
realized PnL of the closed trades. -/
theorem C2_portfolio_conservation (ops : List PortfolioOp) (ib : ℚ)
    (pf : Portfolio)
    (hv : validOps (Portfolio.fresh ib) ops = true)
    (hr : runOps (Portfolio.fresh ib) ops = some pf) :
    pf.balance = ib - sumOpens ops + sumCloses ops ∧
    pf.balance + pf.locked = ib + pf.realized := by
  have h1 := runOps_balance ops (Portfolio.fresh ib) pf hr
  have h2 := runOps_conserved ops (Portfolio.fresh ib) pf hv hr
    (by simp [conserved, Portfolio.fresh, Portfolio.locked,
      Portfolio.realized])
  have hib : pf.initial_balance = ib := by
    simpa [Portfolio.fresh] using h1.2
  refine ⟨by simpa [Portfolio.fresh] using h1.1, ?_⟩
  rw [conserved, hib] at h2
  exact h2

/-- Position used by the C2 witness. -/
def c2posW : Position := ⟨"a", .long, 100, 0, 5, 500, 95, 110⟩

/-- Trade closing `c2posW` at the TP with PnL 50. -/
def c2tradeW : Trade := ⟨"a", .long, 100, 110, 0, 7, 5, 500, 50, 10,
  .take_profit⟩

/-- Operation sequence of the C2 witness: one open, one matching close. -/
def c2opsW : List PortfolioOp :=
  [.openOp c2posW, .closeOp "a" c2tradeW]

/-- C2 witness: open 500 then close with PnL 50 from a fresh balance of
1000 ends at balance 1050 and satisfies both conservation identities. -/
theorem C2_witness :
    validOps (Portfolio.fresh 1000) c2opsW = true ∧
    ∃ pf, runOps (Portfolio.fresh 1000) c2opsW = some pf ∧
      pf.balance = 1000 - sumOpens c2opsW + sumCloses c2opsW ∧
      pf.balance + pf.locked = 1000 + pf.realized ∧
      pf.balance = 1050 := by
  refine ⟨by decide, ?_⟩
  rcases hr : runOps (Portfolio.fresh 1000) c2opsW with _ | pf
  · exact absurd hr (by decide)
  · exact ⟨pf, rfl,
      (C2_portfolio_conservation c2opsW 1000 pf (by decide) hr).1,
      (C2_portfolio_conservation c2opsW 1000 pf (by decide) hr).2,
      by
        have := (C2_portfolio_conservation c2opsW 1000 pf (by decide) hr).1
        rw [this]
        norm_num [c2opsW, sumOpens, sumCloses, c2posW, c2tradeW]⟩

/-- C9: `close_position(id, trade)` errors iff no open position has the
given id, and on that error the portfolio is unchanged (the filter that
reassigns `positions` removed nothing); on success the matching positions
are removed, the trade is appended, and the balance increases by exactly
`trade.size_usd + trade.pnl`. -/
theorem C9_close_position (pf : Portfolio) (i : String) (t : Trade) :
    (pf.close_position i t = none ↔ ∀ p ∈ pf.positions, p.id ≠ i) ∧
    (pf.close_position i t = none →
       pf.positions.filter (fun p => p.id != i) = pf.positions) ∧
    (∀ pf2, pf.close_position i t = some pf2 →
       pf2.positions = pf.positions.filter (fun p => p.id != i) ∧
       pf2.trades = pf.trades ++ [t] ∧
       pf2.balance = pf.balance + t.size_usd + t.pnl ∧
       pf2.initial_balance = pf.initial_balance ∧
       pf2.current_price = pf.current_price ∧
       ∃ p ∈ pf.positions, p.id = i) := by
  have hsub : List.Sublist (pf.positions.filter (fun p => p.id != i))
      pf.positions := List.filter_sublist _
  have hiff :
      (pf.positions.filter (fun p => p.id != i)).length =
        pf.positions.length ↔ ∀ p ∈ pf.positions, p.id ≠ i := by
    constructor
    · intro hl p hp
      have := List.filter_eq_self.mp (hsub.eq_of_length hl) p hp
      simpa using this
    · intro hall
      have : pf.positions.filter (fun p => p.id != i) = pf.positions :=
        List.filter_eq_self.mpr (fun a ha => by simpa using hall a ha)
      rw [this]
  refine ⟨?_, ?_, ?_⟩
  · constructor
    · intro hn
      rw [Portfolio.close_position] at hn
      by_cases hlen :
          (pf.positions.filter (fun p => p.id != i)).length =
            pf.positions.length
      · exact hiff.mp hlen
      · simp [hlen] at hn
    · intro hall
      rw [Portfolio.close_position]
      simp [hiff.mpr hall]
  · intro hn
    rw [Portfolio.close_position] at hn
    by_cases hlen :
        (pf.positions.filter (fun p => p.id != i)).length =
          pf.positions.length
    · exact hsub.eq_of_length hlen
    · simp [hlen] at hn
  · intro pf2 hs
    rw [Portfolio.close_position] at hs
    by_cases hlen :
        (pf.positions.filter (fun p => p.id != i)).length =
          pf.positions.length
    · simp [hlen] at hs
    · simp only [hlen, if_false, Option.some.injEq] at hs
      cases hs
      refine ⟨rfl, rfl, by ring, rfl, rfl, ?_⟩
      by_contra hno
      push_neg at hno
      exact hlen (hiff.mpr fun p hp => hno p hp)

/-- Portfolio used by the C9 witness: one open position with id `"a"`. -/
def c9pfW : Portfolio :=
  { initial_balance := 1000, balance := 500,
    positions := [⟨"a", .long, 100, 0, 5, 500, 95, 110⟩] }

/-- Trade handed to `close_position` in the C9 witness. -/
def c9tradeW : Trade := ⟨"a", .long, 100, 110, 0, 7, 5, 500, 50, 10,
  .take_profit⟩

/-- C9 witness: closing unknown id `"z"` errors; closing `"a"` removes the
position, appends the trade, and credits `size_usd + pnl`. -/
theorem C9_witness :
    c9pfW.close_position "z" c9tradeW = none ∧
    ∃ pf2, c9pfW.close_position "a" c9tradeW = some pf2 ∧
      pf2.positions = [] ∧ pf2.trades = [c9tradeW] ∧
      pf2.balance = c9pfW.balance + c9tradeW.size_usd + c9tradeW.pnl := by
  constructor
  · exact (C9_close_position c9pfW "z" c9tradeW).1.mpr (by decide)
  · rcases hs : c9pfW.close_position "a" c9tradeW with _ | pf2
    · have := (C9_close_position c9pfW "a" c9tradeW).1.mp hs
      exact absurd this (by decide)
    · obtain ⟨h1, h2, h3, -, -, -⟩ :=
        (C9_close_position c9pfW "a" c9tradeW).2.2 pf2 hs
      exact ⟨pf2, rfl, by rw [h1]; decide, by rw [h2]; decide, h3⟩

/-- Entry notional (`entry_price × size`) summed over the long positions. -/
def longNotional (ps : List Position) : ℚ :=
  ((ps.filter (fun p => p.side == Side.long)).map
    (fun p => p.entry_price * p.size)).sum

/-- Entry notional summed over the short positions. -/
def shortNotional (ps : List Position) : ℚ :=
  ((ps.filter (fun p => p.side == Side.short)).map
    (fun p => p.entry_price * p.size)).sum

theorem longNotional_cons (p : Position) (rest : List Position) :
    longNotional (p :: rest) =
      (if p.side = .long then p.entry_price * p.size else 0) +
        longNotional rest := by
  cases hside : p.side <;> simp [longNotional, List.filter_cons, hside]

theorem shortNotional_cons (p : Position) (rest : List Position) :
    shortNotional (p :: rest) =
      (if p.side = .short then p.entry_price * p.size else 0) +
        shortNotional rest := by
  cases hside : p.side <;> simp [shortNotional, List.filter_cons, hside]

theorem sum_unrealized_at_zero (ps : List Position) :
    (ps.map (fun p => p.unrealized_pnl 0)).sum =
      shortNotional ps - longNotional ps := by
  induction ps with
  | nil => simp [longNotional, shortNotional]
  | cons p rest ih =>
      rw [List.map_cons, List.sum_cons, ih, longNotional_cons,
        shortNotional_cons]
      cases hside : p.side <;>
        simp [Position.unrealized_pnl, hside] <;> ring

/-- Long and short position cancelling exactly at price 0 (C10). -/
def c10longW : Position := ⟨"a", .long, 100, 0, 1, 100, 90, 110⟩

/-- The offsetting short position of the C10 counterexample. -/
def c10shortW : Position := ⟨"b", .short, 100, 0, 1, 100, 110, 90⟩

/-- A portfolio that has never observed a price, holding both. -/
def c10pfW : Portfolio :=
  { initial_balance := 1000, balance := 800,
    positions := [c10longW, c10shortW] }

/-- C10 counterexample: a price-naive portfolio holding an offsetting long
and short has open positions yet `equity = balance`, refuting the claim
that equity differs from balance whenever any position is open. -/
theorem C10_counterexample :
    c10pfW.current_price = 0 ∧ c10pfW.positions ≠ [] ∧
    c10pfW.equity = c10pfW.balance := by
  refine ⟨rfl, by decide, ?_⟩
  norm_num [c10pfW, Portfolio.equity, Position.unrealized_pnl,
    c10longW, c10shortW]

/-- C10 (amended): before the first `update_price` call the cached price
is `0.0`, so `equity` evaluates unrealized PnL at price 0: for a portfolio
that has not yet observed a price, equity equals balance minus
`entry_price × size` summed over longs plus the same sum over shorts; it
differs from balance whenever those two sums differ (in particular for a
single open position with nonzero entry notional) — but not whenever any
position is open, since offsetting books cancel. -/
theorem C10_equity_before_price (ib b : ℚ) (ps : List Position)
    (ts : List Trade) :
    (Portfolio.fresh ib).current_price = 0 ∧
    ({ initial_balance := ib, balance := b, positions := ps,
       trades := ts : Portfolio }).equity =
      b - longNotional ps + shortNotional ps ∧
    (longNotional ps ≠ shortNotional ps →
      ({ initial_balance := ib, balance := b, positions := ps,
         trades := ts : Portfolio }).equity ≠ b) := by
  have he :
      ({ initial_balance := ib, balance := b, positions := ps,
         trades := ts : Portfolio }).equity =
        b - longNotional ps + shortNotional ps := by
    simp only [Portfolio.equity, sum_unrealized_at_zero]
    ring
  refine ⟨rfl, he, ?_⟩
  intro hne heq
  rw [he] at heq
  apply hne
  linarith

/-- C10 witness: a single long position with entry notional 100 makes
equity differ from balance (here 800 vs 700). -/
theorem C10_witness :
    ({ initial_balance := 1000, balance := 800,
       positions := [c10longW], trades := [] : Portfolio }).equity ≠ 800 := by
  have h := (C10_equity_before_price 1000 800 [c10longW] []).2.2
  apply h
  simp [longNotional, shortNotional, c10longW, List.filter_cons,
    beq_iff_eq]

/-! ## Result metrics (`src/analysis/metrics.py`) -/

/-- `EquityPoint` — a single point on the equity curve. -/
structure EquityPoint where
  timestamp : Nat
  equity : ℚ
deriving DecidableEq

/-- One iteration of the `for point in equity_curve` loop of
`calculate_max_drawdown`: the state is `(peak, max_dd)`. -/
def mddStep (st : ℚ × ℚ) (pt : EquityPoint) : ℚ × ℚ :=
  let peak := if st.1 < pt.equity then pt.equity else st.1
  (peak, if 0 < peak then max st.2 ((peak - pt.equity) / peak) else st.2)

/-- `calculate_max_drawdown` — maximum peak-to-trough drawdown.  (The
source's early `return 0.0` for curves of length ≤ 1 also covers the empty
curve, so the `[]` arm returns 0.) -/
def calculate_max_drawdown (curve : List EquityPoint) : ℚ :=
  match curve with
  | [] => 0
  | p0 :: rest =>
      if (p0 :: rest).length ≤ 1 then 0
      else ((p0 :: rest).foldl mddStep (p0.equity, 0)).2

/-- Drawdowns `(running_peak − equity) / running_peak` along a curve, the
quantity the spec maximises (running peak seeded by the accumulator). -/
def specDds (peak : ℚ) : List EquityPoint → List ℚ
  | [] => []
  | pt :: rest =>
      let peak2 := max peak pt.equity
      ((peak2 - pt.equity) / peak2) :: specDds peak2 rest

/-- Maximum of a list of rationals (0 for the empty list). -/
def listMax : List ℚ → ℚ
  | [] => 0
  | x :: xs => xs.foldl max x

theorem ite_lt_eq_max (a b : ℚ) : (if a < b then b else a) = max a b := by
  rcases lt_or_ge a b with h | h
  · simp [h, max_eq_right h.le]
  · simp [not_lt.mpr h, max_eq_left h]

theorem mdd_foldl_nonneg :
    ∀ (l : List EquityPoint) (st : ℚ × ℚ),
      0 ≤ st.2 → 0 ≤ (l.foldl mddStep st).2 := by
  intro l
  induction l with
  | nil => intro st h; simpa using h
  | cons pt rest ih =>
      intro st h
      rw [List.foldl_cons]
      apply ih
      simp only [mddStep]
      by_cases hpk : 0 < (if st.1 < pt.equity then pt.equity else st.1)
      · simp only [hpk, if_pos]
        exact le_trans h (le_max_left _ _)
      · simpa [hpk] using h

theorem mdd_foldl_eq_spec :
    ∀ (l : List EquityPoint) (peak md : ℚ),
      0 ≤ md →
      (l.foldl mddStep (peak, md)).2 = (specDds peak l).foldl max md := by
  intro l
  induction l with
  | nil => intro peak md _; simp [specDds]
  | cons pt rest ih =>
      intro peak md hmd
      rw [List.foldl_cons, specDds, List.foldl_cons]
      simp only [mddStep, ite_lt_eq_max]
      by_cases hpk : 0 < max peak pt.equity
      · rw [if_pos hpk]
        exact ih (max peak pt.equity) _
          (le_trans hmd (le_max_left _ _))
      · have hdd : (max peak pt.equity - pt.equity) / max peak pt.equity ≤ 0 := by
          apply div_nonpos_iff.mpr
          exact Or.inl ⟨by linarith [le_max_right peak pt.equity], not_lt.mp hpk⟩
        have hmax : max md ((max peak pt.equity - pt.equity) /
            max peak pt.equity) = md := max_eq_left (le_trans hdd hmd)
        rw [if_neg hpk, hmax]
        exact ih (max peak pt.equity) md hmd

theorem mdd_foldl_le_one :
    ∀ (l : List EquityPoint) (st : ℚ × ℚ),
      st.2 ≤ 1 → (∀ pt ∈ l, 0 ≤ pt.equity) →
      (l.foldl mddStep st).2 ≤ 1 := by
  intro l
  induction l with
  | nil => intro st h _; simpa using h
  | cons pt rest ih =>
      intro st h hnn
      rw [List.foldl_cons]
      apply ih
      · simp only [mddStep, ite_lt_eq_max]
        by_cases hpk : 0 < max st.1 pt.equity
        · simp only [hpk, if_pos, max_le_iff]
          refine ⟨h, ?_⟩
          rw [div_le_one hpk]
          have := hnn pt (List.mem_cons_self pt rest)
          linarith
        · simpa [hpk] using h
      · intro q hq
        exact hnn q (List.mem_cons_of_mem pt hq)

theorem mdd_foldl_chain_zero :
    ∀ (l : List EquityPoint) (peak : ℚ),
      (∀ pt, l.head? = some pt → peak ≤ pt.equity) →
      List.Chain' (fun a b => a.equity ≤ b.equity) l →
      (l.foldl mddStep (peak, 0)).2 = 0 := by
  intro l
  induction l with
  | nil => intro peak _ _; simp
  | cons pt rest ih =>
      intro peak hhd hch
      have hpe : peak ≤ pt.equity := hhd pt rfl
      rw [List.foldl_cons]
      simp only [mddStep, ite_lt_eq_max, max_eq_right hpe, sub_self,
        zero_div, max_self]
      have hstep : (if 0 < pt.equity then (0 : ℚ) else 0) = 0 := by
        split <;> rfl
      rw [hstep]
      apply ih
      · intro q hq
        cases rest with
        | nil => simp at hq
        | cons q2 rest2 =>
            cases hq
            exact (List.chain'_cons.mp hch).1
      · exact hch.tail

theorem mdd_singleton (p0 : EquityPoint) :
    calculate_max_drawdown [p0] = 0 := by
  simp [calculate_max_drawdown]

theorem mdd_short_nil (curve : List EquityPoint) (h : curve.length ≤ 1) :
    calculate_max_drawdown curve = 0 := by
  cases curve with
  | nil => rfl
  | cons p0 rest =>
      have hnil : rest = [] := by
        cases rest with
        | nil => rfl
        | cons a l => simp at h
      subst hnil
      exact mdd_singleton p0

/-- The C8 counterexample curve: equity drops from 100 to −50. -/
def c8curveW : List EquityPoint := [⟨0, 100⟩, ⟨1, -50⟩]

/-- C8 counterexample: on a curve whose equity turns negative,
`calculate_max_drawdown` returns 3/2, which lies outside `[0, 1]` —
refuting the claim that the result always lies in that interval. -/
theorem C8_counterexample :
    calculate_max_drawdown c8curveW = 3 / 2 ∧
    ¬ calculate_max_drawdown c8curveW ≤ 1 := by
  have h : calculate_max_drawdown c8curveW = 3 / 2 := by
    norm_num [calculate_max_drawdown, c8curveW, mddStep, List.foldl]
  exact ⟨h, by rw [h]; norm_num⟩

/-- C8 (amended): `calculate_max_drawdown` returns the maximum over the
curve of `(running_peak − equity) / running_peak`, returns 0 when the
curve has at most one point or is monotone non-decreasing, and the
returned value is always ≥ 0 and lies in `[0, 1]` whenever every equity in
the curve is nonnegative (a curve with negative equity can exceed 1). -/
theorem C8_max_drawdown (curve : List EquityPoint) :
    (curve.length ≤ 1 → calculate_max_drawdown curve = 0) ∧
    (List.Chain' (fun a b => a.equity ≤ b.equity) curve →
       calculate_max_drawdown curve = 0) ∧
    (∀ p0 rest, curve = p0 :: rest → 2 ≤ curve.length →
       calculate_max_drawdown curve = listMax (specDds p0.equity curve)) ∧
    0 ≤ calculate_max_drawdown curve ∧
    ((∀ pt ∈ curve, 0 ≤ pt.equity) → calculate_max_drawdown curve ≤ 1) := by
  refine ⟨?_, ?_, ?_, ?_, ?_⟩
  · exact mdd_short_nil curve
  · intro hch
    cases curve with
    | nil => rfl
    | cons p0 rest =>
        by_cases hlen : (p0 :: rest).length ≤ 1
        · exact mdd_short_nil _ hlen
        · simp only [calculate_max_drawdown, hlen, if_neg, not_false_iff]
          exact mdd_foldl_chain_zero (p0 :: rest) p0.equity
            (fun pt hpt => by cases hpt; exact le_refl _) hch
  · intro p0 rest hcv hlen
    subst hcv
    have hlen2 : ¬ (p0 :: rest).length ≤ 1 := by omega
    simp only [calculate_max_drawdown, hlen2, if_neg, not_false_iff]
    rw [mdd_foldl_eq_spec (p0 :: rest) p0.equity 0 le_rfl]
    rw [specDds, listMax]
    simp [max_self, sub_self]
  · cases curve with
    | nil => exact le_refl 0
    | cons p0 rest =>
        by_cases hlen : (p0 :: rest).length ≤ 1
        · rw [mdd_short_nil _ hlen]
        · simp only [calculate_max_drawdown, hlen, if_neg, not_false_iff]
          exact mdd_foldl_nonneg (p0 :: rest) (p0.equity, 0) le_rfl
  · intro hnn
    cases curve with
    | nil => norm_num [calculate_max_drawdown]
    | cons p0 rest =>
        by_cases hlen : (p0 :: rest).length ≤ 1
        · rw [mdd_short_nil _ hlen]; norm_num
        · simp only [calculate_max_drawdown, hlen, if_neg, not_false_iff]
          exact mdd_foldl_le_one (p0 :: rest) (p0.equity, 0)
            (by norm_num) hnn

/-- The C8 witness curve: 100 → 80 → 120 (drawdown 1/5). -/
def c8wcurveW : List EquityPoint := [⟨0, 100⟩, ⟨1, 80⟩, ⟨2, 120⟩]

/-- C8 witness: on a nonnegative three-point curve the drawdown equals the
spec maximum and lies in `[0, 1]`. -/
theorem C8_witness :
    calculate_max_drawdown c8wcurveW =
      listMax (specDds (100 : ℚ) c8wcurveW) ∧
    0 ≤ calculate_max_drawdown c8wcurveW ∧
    calculate_max_drawdown c8wcurveW ≤ 1 := by
  have h := C8_max_drawdown c8wcurveW
  refine ⟨?_, h.2.2.2.1, h.2.2.2.2 ?_⟩
  · have := h.2.2.1 ⟨0, 100⟩ [⟨1, 80⟩, ⟨2, 120⟩] rfl (by norm_num [c8wcurveW])
    simpa [c8wcurveW] using this
  · intro pt hpt
    fin_cases hpt <;> norm_num

/-! ## Timeframe aggregation (`src/core/timeframe.py`) -/

/-- `timestamp.hour` for a timestamp in minutes since a Monday-00:00 UTC
epoch. -/
def tsHour (t : Nat) : Nat := t / 60 % 24

/-- `timestamp.minute`. -/
def tsMinute (t : Nat) : Nat := t % 60

/-- `timestamp.isoweekday()` (Monday = 1 … Sunday = 7). -/
def tsIsoWeekday (t : Nat) : Nat := t / 1440 % 7 + 1

/-- `is_timeframe_complete` — does this 1m close complete a `tf` candle? -/
def is_timeframe_complete (tf : Tf) (t : Nat) : Bool :=
  match tf with
  | .w1 => tsIsoWeekday t == 7 && tsHour t == 23 && tsMinute t == 59
  | .d1 => tsHour t == 23 && tsMinute t == 59
  | _ => (tsHour t * 60 + tsMinute t + 1) % tf.minutes == 0

/-- `_AggregatingCandle` — in-progress higher-timeframe candle. -/
structure AggregatingCandle where
  open_time : Nat
  open_ : ℚ
  high : ℚ
  low : ℚ
  close : ℚ
  volume : ℚ
  open_interest : ℚ := 0
  cvd : ℚ := 0
deriving DecidableEq

/-- `_AggregatingCandle.update` — fold one 1m candle in. -/
def AggregatingCandle.update (b : AggregatingCandle) (c : Candle) :
    AggregatingCandle :=
  { b with high := max b.high c.high, low := min b.low c.low,
           close := c.close, volume := b.volume + c.volume,
           open_interest := c.open_interest, cvd := c.cvd }

/-- `_AggregatingCandle.to_candle`. -/
def AggregatingCandle.to_candle (b : AggregatingCandle) : Candle :=
  ⟨b.open_time, b.open_, b.high, b.low, b.close, b.volume,
    b.open_interest, b.cvd⟩

/-- The fresh `_AggregatingCandle(...)` built in
`TimeframeAggregator._process_candle` when no candle is building. -/
def startAggregating (c : Candle) : AggregatingCandle :=
  ⟨c.timestamp, c.open_, c.high, c.low, c.close, c.volume,
    c.open_interest, c.cvd⟩

/-- Per-timeframe slice of `TimeframeAggregator` state: the in-progress
candle and the completed-candle history of one higher timeframe. -/
structure TfState where
  building : Option AggregatingCandle := none
  history : List Candle := []
deriving DecidableEq

/-- `TimeframeAggregator._append_history` — append and trim to
`max_history` (Python `history[-max_history:]`). -/
def appendHistory (maxHistory : Nat) (h : List Candle) (c : Candle) :
    List Candle :=
  let h2 := h ++ [c]
  if maxHistory < h2.length then h2.drop (h2.length - maxHistory) else h2

/-- The body of `TimeframeAggregator._process_candle` for one higher
timeframe `tf ≠ 1m`: update or start the in-progress candle, then complete
it when the 1m timestamp closes the `tf` bucket. -/
def processCandleTf (maxHistory : Nat) (tf : Tf) (st : TfState)
    (c : Candle) : TfState :=
  let b := match st.building with
    | none => startAggregating c
    | some b0 => b0.update c
  if is_timeframe_complete tf c.timestamp then
    { building := none,
      history := appendHistory maxHistory st.history b.to_candle }
  else
    { building := some b, history := st.history }

/-- Minimum of a list of rationals (0 for the empty list). -/
def listMin : List ℚ → ℚ
  | [] => 0
  | x :: xs => xs.foldl min x

theorem foldl_update_open :
    ∀ (cs : List Candle) (b : AggregatingCandle),
      (cs.foldl AggregatingCandle.update b).open_ = b.open_ := by
  intro cs
  induction cs with
  | nil => intro b; rfl
  | cons c rest ih => intro b; rw [List.foldl_cons, ih]; rfl

theorem foldl_update_open_time :
    ∀ (cs : List Candle) (b : AggregatingCandle),
      (cs.foldl AggregatingCandle.update b).open_time = b.open_time := by
  intro cs
  induction cs with
  | nil => intro b; rfl
  | cons c rest ih => intro b; rw [List.foldl_cons, ih]; rfl

theorem foldl_update_high :
    ∀ (cs : List Candle) (b : AggregatingCandle),
      (cs.foldl AggregatingCandle.update b).high =
        (cs.map (fun c => c.high)).foldl max b.high := by
  intro cs
  induction cs with
  | nil => intro b; rfl
  | cons c rest ih => intro b; rw [List.foldl_cons, ih]; rfl

theorem foldl_update_low :
    ∀ (cs : List Candle) (b : AggregatingCandle),
      (cs.foldl AggregatingCandle.update b).low =
        (cs.map (fun c => c.low)).foldl min b.low := by
  intro cs
  induction cs with
  | nil => intro b; rfl
  | cons c rest ih => intro b; rw [List.foldl_cons, ih]; rfl

theorem foldl_update_volume :
    ∀ (cs : List Candle) (b : AggregatingCandle),
      (cs.foldl AggregatingCandle.update b).volume =
        b.volume + (cs.map (fun c => c.volume)).sum := by
  intro cs
  induction cs with
  | nil => intro b; simp
  | cons c rest ih =>
      intro b
      rw [List.foldl_cons, ih, List.map_cons, List.sum_cons]
      show b.volume + c.volume + _ = _
      ring

theorem foldl_update_close :
    ∀ (cs : List Candle) (b : AggregatingCandle),
      (cs.foldl AggregatingCandle.update b).close =
        (cs.map (fun c => c.close)).getLastD b.close := by
  intro cs
  induction cs with
  | nil => intro b; rfl
  | cons c rest ih =>
      intro b
      rw [List.foldl_cons, ih, List.map_cons, List.getLastD_cons]
      rfl

theorem foldl_update_oi :
    ∀ (cs : List Candle) (b : AggregatingCandle),
      (cs.foldl AggregatingCandle.update b).open_interest =
        (cs.map (fun c => c.open_interest)).getLastD b.open_interest := by
  intro cs
  induction cs with
  | nil => intro b; rfl
  | cons c rest ih =>
      intro b
      rw [List.foldl_cons, ih, List.map_cons, List.getLastD_cons]
      rfl

theorem foldl_update_cvd :
    ∀ (cs : List Candle) (b : AggregatingCandle),
      (cs.foldl AggregatingCandle.update b).cvd =
        (cs.map (fun c => c.cvd)).getLastD b.cvd := by
  intro cs
  induction cs with
  | nil => intro b; rfl
  | cons c rest ih =>
      intro b
      rw [List.foldl_cons, ih, List.map_cons, List.getLastD_cons]
      rfl

theorem getLastD_append_single {α : Type} :
    ∀ (l : List α) (a d : α), (l ++ [a]).getLastD d = a := by
  intro l
  induction l with
  | nil => intro a d; rfl
  | cons x xs ih =>
      intro a d
      rw [List.cons_append, List.getLastD_cons]
      exact ih a x

theorem run_building_accum (maxH : Nat) (tf : Tf) :
    ∀ (cs : List Candle) (b : AggregatingCandle) (h : List Candle),
      (∀ c ∈ cs, is_timeframe_complete tf c.timestamp = false) →
      cs.foldl (processCandleTf maxH tf) ⟨some b, h⟩ =
        ⟨some (cs.foldl AggregatingCandle.update b), h⟩ := by
  intro cs
  induction cs with
  | nil => intro b h _; rfl
  | cons c rest ih =>
      intro b h hnc
      rw [List.foldl_cons, List.foldl_cons]
      have hc : is_timeframe_complete tf c.timestamp = false :=
        hnc c (List.mem_cons_self c rest)
      show rest.foldl (processCandleTf maxH tf)
        (processCandleTf maxH tf ⟨some b, h⟩ c) = _
      simp only [processCandleTf, hc, Bool.false_eq_true, if_false,
        if_neg, not_false_iff]
      exact ih (b.update c) h
        (fun x hx => hnc x (List.mem_cons_of_mem c hx))

/-- C5: a completed higher-timeframe candle with 1m constituents
`c1 .. cn` fed in order (none of `c1 .. c(n-1)` completing the bucket, and
`cn` completing it) has `open = c1.open`, `close = cn.close`,
`high = max ci.high`, `low = min ci.low`, `volume = Σ ci.volume`, and
`open_interest` / `cvd` equal to the last constituent's values; on
completion it is appended to that timeframe's history (trimmed to
`max_history`) and the in-progress slot is cleared. -/
theorem C5_aggregator (tf : Tf) (maxH : Nat) (h : List Candle)
    (pre : List Candle) (lastc : Candle)
    (hpre : ∀ c ∈ pre, is_timeframe_complete tf c.timestamp = false)
    (hlast : is_timeframe_complete tf lastc.timestamp = true) :
    ∃ done : Candle,
      (pre ++ [lastc]).foldl (processCandleTf maxH tf)
          { building := none, history := h } =
        { building := none, history := appendHistory maxH h done } ∧
      (h.length + 1 ≤ maxH → appendHistory maxH h done = h ++ [done]) ∧
      done.close = lastc.close ∧
      done.open_interest = lastc.open_interest ∧
      done.cvd = lastc.cvd ∧
      (∀ c1 cs', pre ++ [lastc] = c1 :: cs' →
        done.open_ = c1.open_ ∧
        done.timestamp = c1.timestamp ∧
        done.high = listMax ((c1 :: cs').map (fun c => c.high)) ∧
        done.low = listMin ((c1 :: cs').map (fun c => c.low)) ∧
        done.volume = ((c1 :: cs').map (fun c => c.volume)).sum) := by
  have happ : ∀ done : Candle, h.length + 1 ≤ maxH →
      appendHistory maxH h done = h ++ [done] := by
    intro done hm
    have hlt : ¬ maxH < (h ++ [done]).length := by
      simp only [List.length_append, List.length_cons, List.length_nil]
      omega
    show (if maxH < (h ++ [done]).length then
        (h ++ [done]).drop ((h ++ [done]).length - maxH)
      else h ++ [done]) = h ++ [done]
    exact if_neg hlt
  cases pre with
  | nil =>
      refine ⟨(startAggregating lastc).to_candle, ?_, happ _, rfl, rfl, rfl, ?_⟩
      · show processCandleTf maxH tf ⟨none, h⟩ lastc = _
        simp only [processCandleTf, hlast, if_pos]
      · intro c1 cs' heq
        rw [List.nil_append] at heq
        cases heq
        refine ⟨rfl, rfl, rfl, rfl, ?_⟩
        show lastc.volume = lastc.volume + 0
        ring
  | cons c1 pre' =>
      refine ⟨((pre' ++ [lastc]).foldl AggregatingCandle.update
        (startAggregating c1)).to_candle, ?_, happ _, ?_, ?_, ?_, ?_⟩
      · have h1 : is_timeframe_complete tf c1.timestamp = false :=
          hpre c1 (List.mem_cons_self c1 pre')
        -- the first candle starts the in-progress slot
        rw [List.cons_append, List.foldl_cons]
        have hstep1 : processCandleTf maxH tf ⟨none, h⟩ c1 =
            ⟨some (startAggregating c1), h⟩ := by
          simp only [processCandleTf, h1, Bool.false_eq_true, if_false,
            if_neg, not_false_iff]
        rw [hstep1, List.foldl_append,
          run_building_accum maxH tf pre' (startAggregating c1) h
            (fun x hx => hpre x (List.mem_cons_of_mem c1 hx))]
        rw [List.foldl_cons, List.foldl_nil]
        simp only [processCandleTf, hlast, if_pos]
        rw [List.foldl_append]
        rfl
      · rw [AggregatingCandle.to_candle, foldl_update_close,
          List.map_append]
        exact getLastD_append_single _ _ _
      · rw [AggregatingCandle.to_candle, foldl_update_oi,
          List.map_append]
        exact getLastD_append_single _ _ _
      · rw [AggregatingCandle.to_candle, foldl_update_cvd,
          List.map_append]
        exact getLastD_append_single _ _ _
      · intro d1 ds' heq
        rw [List.cons_append] at heq
        injection heq with he1 he2
        subst he1
        refine ⟨?_, ?_, ?_, ?_, ?_⟩
        · rw [AggregatingCandle.to_candle, foldl_update_open]
          rfl
        · rw [AggregatingCandle.to_candle, foldl_update_open_time]
          rfl
        · rw [AggregatingCandle.to_candle, foldl_update_high, ← he2,
            List.map_cons]
          simp only [listMax]
          rfl
        · rw [AggregatingCandle.to_candle, foldl_update_low, ← he2,
            List.map_cons]
          simp only [listMin]
          rfl
        · rw [AggregatingCandle.to_candle, foldl_update_volume, ← he2,
            List.map_cons, List.sum_cons]
          rfl

/-- The four non-completing 5m constituents of the C5 witness
(minutes 0–3). -/
def c5preW : List Candle :=
  [⟨0, 10, 12, 9, 11, 1, 0, 0⟩, ⟨1, 11, 20, 8, 12, 2, 0, 0⟩,
   ⟨2, 12, 13, 5, 13, 3, 0, 0⟩, ⟨3, 13, 14, 9, 12, 4, 0, 0⟩]

/-- The completing constituent at minute 4. -/
def c5lastW : Candle := ⟨4, 12, 15, 10, 14, 5, 7, 3⟩

/-- C5 witness: feeding minutes 0–4 into the 5m slice completes one candle
with open 10, close 14, high 20, low 5, volume 15, and the last observed
orderflow values; it is appended to history and the slot cleared. -/
theorem C5_witness :
    ∃ done : Candle,
      (c5preW ++ [c5lastW]).foldl (processCandleTf 10 Tf.m5)
          { building := none, history := [] } =
        { building := none, history := [done] } ∧
      done.open_ = 10 ∧ done.close = 14 ∧ done.high = 20 ∧
      done.low = 5 ∧ done.volume = 15 ∧
      done.open_interest = 7 ∧ done.cvd = 3 := by
  obtain ⟨done, h1, h2, h3, h4, h5, h6⟩ :=
    C5_aggregator Tf.m5 10 [] c5preW c5lastW (by decide) (by decide)
  have happ : appendHistory 10 [] done = [done] := by
    have := h2 (by norm_num)
    simpa using this
  obtain ⟨ho, -, hh, hl, hv⟩ := h6 ⟨0, 10, 12, 9, 11, 1, 0, 0⟩
    [⟨1, 11, 20, 8, 12, 2, 0, 0⟩, ⟨2, 12, 13, 5, 13, 3, 0, 0⟩,
     ⟨3, 13, 14, 9, 12, 4, 0, 0⟩, c5lastW] (by rfl)
  refine ⟨done, by rw [h1, happ], by simpa using ho, by simp [h3, c5lastW],
    ?_, ?_, ?_, by simp [h4, c5lastW], by simp [h5, c5lastW]⟩
  · rw [hh]; norm_num [listMax, c5lastW, List.foldl]
  · rw [hl]; norm_num [listMin, c5lastW, List.foldl]
  · rw [hv]; norm_num [c5lastW, List.sum_cons]

/-! ## Executors (`src/execution/backtest.py`, `src/execution/paper.py`) -/

/-- `_build_trade` — identical module-level helper in `backtest.py` and
`paper.py`. -/
def build_trade (p : Position) (exit_price : ℚ) (exit_time : Nat)
    (reason : CloseReason) : Trade :=
  let pnl := match p.side with
    | .long => (exit_price - p.entry_price) * p.size
    | .short => (p.entry_price - exit_price) * p.size
  let pnl_percent := if 0 < p.size_usd then pnl / p.size_usd * 100 else 0
  ⟨p.id, p.side, p.entry_price, exit_price, p.entry_time, exit_time,
    p.size, p.size_usd, pnl, pnl_percent, reason⟩

/-- `Position.side = signal.direction` as written in `_open_position`;
the `close` arm is never reached (`_open_position` is only dispatched for
long/short signals). -/
def Direction.toSide : Direction → Side
  | .long => .long
  | .short => .short
  | .close => .long

/-- `BacktestExecutor._open_position`.  `gen_id` stands for the fresh
`Position.generate_id()` and `current_time` for the executor's
`current_time` field. -/
def backtest_open_position (sig : Signal) (price : ℚ) (pf : Portfolio)
    (gen_id : String) (current_time : Nat) : Option Position :=
  match sig.size_percent, sig.stop_loss, sig.take_profit with
  | some sp, some sl, some tp =>
      let size_usd := pf.equity * sp
      if size_usd ≤ 0 then none
      else if pf.balance < size_usd then none
      else if price ≤ 0 then none
      else some ⟨gen_id, sig.direction.toSide, price, current_time,
        size_usd / price, size_usd, sl, tp⟩
  | _, _, _ => none

/-- `PaperExecutor._open_position` — identical validation; the entry time
is the wall clock `datetime.now(UTC)`, passed in as `now`. -/
def paper_open_position (sig : Signal) (price : ℚ) (pf : Portfolio)
    (gen_id : String) (now : Nat) : Option Position :=
  match sig.size_percent, sig.stop_loss, sig.take_profit with
  | some sp, some sl, some tp =>
      let size_usd := pf.equity * sp
      if size_usd ≤ 0 then none
      else if pf.balance < size_usd then none
      else if price ≤ 0 then none
      else some ⟨gen_id, sig.direction.toSide, price, now,
        size_usd / price, size_usd, sl, tp⟩
  | _, _, _ => none

/-- C6: the backtest and paper executors apply identical open-signal
validation — both reject iff `size_percent`, `stop_loss` or `take_profit`
is absent, or `portfolio.equity × size_percent ≤ 0`, or that `size_usd`
exceeds `portfolio.balance`, or `current_price ≤ 0` — and when both
accept, the returned positions agree on side,
`entry_price = current_price`, `size_usd = equity × size_percent`,
`size = size_usd / current_price`, `stop_loss` and `take_profit`; only the
generated id and the entry timestamp may differ. -/
theorem C6_executor_open_equivalence (sig : Signal) (price : ℚ)
    (pf : Portfolio) (gid1 gid2 : String) (t1 t2 : Nat)
    (hdir : sig.direction ≠ Direction.close) :
    (backtest_open_position sig price pf gid1 t1 = none ↔
      (sig.size_percent = none ∨ sig.stop_loss = none ∨
        sig.take_profit = none ∨
        (∃ sp, sig.size_percent = some sp ∧
          (pf.equity * sp ≤ 0 ∨ pf.balance < pf.equity * sp ∨
           price ≤ 0)))) ∧
    (paper_open_position sig price pf gid2 t2 = none ↔
      backtest_open_position sig price pf gid1 t1 = none) ∧
    (∀ p1 p2, backtest_open_position sig price pf gid1 t1 = some p1 →
       paper_open_position sig price pf gid2 t2 = some p2 →
       ∀ sp sl tp, sig.size_percent = some sp → sig.stop_loss = some sl →
         sig.take_profit = some tp →
         p1.side = sig.direction.toSide ∧ p2.side = p1.side ∧
         p1.entry_price = price ∧ p2.entry_price = price ∧
         p1.size_usd = pf.equity * sp ∧ p2.size_usd = p1.size_usd ∧
         p1.size = pf.equity * sp / price ∧ p2.size = p1.size ∧
         p1.stop_loss = sl ∧ p2.stop_loss = sl ∧
         p1.take_profit = tp ∧ p2.take_profit = tp ∧
         p1.id = gid1 ∧ p2.id = gid2 ∧
         p1.entry_time = t1 ∧ p2.entry_time = t2) := by
  rcases hsp : sig.size_percent with _ | sp
  · refine ⟨?_, ?_, ?_⟩
    · simp [backtest_open_position, hsp]
    · simp [backtest_open_position, paper_open_position, hsp]
    · intro p1 p2 h1
      simp [backtest_open_position, hsp] at h1
  · rcases hsl : sig.stop_loss with _ | sl
    · refine ⟨?_, ?_, ?_⟩
      · simp [backtest_open_position, hsp, hsl]
      · simp [backtest_open_position, paper_open_position, hsp, hsl]
      · intro p1 p2 h1
        simp [backtest_open_position, hsp, hsl] at h1
    · rcases htp : sig.take_profit with _ | tp
      · refine ⟨?_, ?_, ?_⟩
        · simp [backtest_open_position, hsp, hsl, htp]
        · simp [backtest_open_position, paper_open_position, hsp, hsl, htp]
        · intro p1 p2 h1
          simp [backtest_open_position, hsp, hsl, htp] at h1
      · refine ⟨?_, ?_, ?_⟩
        · simp only [backtest_open_position, hsp, hsl, htp]
          constructor
          · intro hn
            by_cases h0 : pf.equity * sp ≤ 0
            · exact Or.inr (Or.inr (Or.inr ⟨sp, rfl, Or.inl h0⟩))
            · rw [if_neg h0] at hn
              by_cases hb : pf.balance < pf.equity * sp
              · exact Or.inr (Or.inr (Or.inr ⟨sp, rfl,
                  Or.inr (Or.inl hb)⟩))
              · rw [if_neg hb] at hn
                by_cases hp0 : price ≤ 0
                · exact Or.inr (Or.inr (Or.inr ⟨sp, rfl,
                    Or.inr (Or.inr hp0)⟩))
                · rw [if_neg hp0] at hn
                  cases hn
          · intro hor
            rcases hor with h | h | h | ⟨sp2, hsp2, hor⟩
            · exact Option.noConfusion h
            · exact Option.noConfusion h
            · exact Option.noConfusion h
            · have hsp3 : sp2 = sp := by
                injection hsp2 with h
                exact h.symm
              rw [hsp3] at hor
              rcases hor with h0 | hb | hp0
              · rw [if_pos h0]
              · by_cases h0 : pf.equity * sp ≤ 0
                · rw [if_pos h0]
                · rw [if_neg h0, if_pos hb]
              · by_cases h0 : pf.equity * sp ≤ 0
                · rw [if_pos h0]
                · rw [if_neg h0]
                  by_cases hb : pf.balance < pf.equity * sp
                  · rw [if_pos hb]
                  · rw [if_neg hb, if_pos hp0]
        · simp only [backtest_open_position, paper_open_position, hsp,
            hsl, htp]
          by_cases h0 : pf.equity * sp ≤ 0
          · rw [if_pos h0, if_pos h0]
          · rw [if_neg h0, if_neg h0]
            by_cases hb : pf.balance < pf.equity * sp
            · rw [if_pos hb, if_pos hb]
            · rw [if_neg hb, if_neg hb]
              by_cases hp0 : price ≤ 0
              · rw [if_pos hp0, if_pos hp0]
              · rw [if_neg hp0, if_neg hp0]
                simp
        · intro p1 p2 h1 h2 sp2 sl2 tp2 hsp2 hsl2 htp2
          have hsp3 : sp2 = sp := by injection hsp2 with h; exact h.symm
          have hsl3 : sl2 = sl := by injection hsl2 with h; exact h.symm
          have htp3 : tp2 = tp := by injection htp2 with h; exact h.symm
          rw [hsp3, hsl3, htp3]
          simp only [backtest_open_position, hsp, hsl, htp] at h1
          simp only [paper_open_position, hsp, hsl, htp] at h2
          by_cases h0 : pf.equity * sp ≤ 0
          · rw [if_pos h0] at h1; cases h1
          · rw [if_neg h0] at h1 h2
            by_cases hb : pf.balance < pf.equity * sp
            · rw [if_pos hb] at h1; cases h1
            · rw [if_neg hb] at h1 h2
              by_cases hp0 : price ≤ 0
              · rw [if_pos hp0] at h1; cases h1
              · rw [if_neg hp0] at h1 h2
                cases h1
                cases h2
                exact ⟨rfl, rfl, rfl, rfl, rfl, rfl, rfl, rfl, rfl, rfl,
                  rfl, rfl, rfl, rfl, rfl, rfl⟩

/-- The concrete open-long signal of the C6 witness. -/
def c6sigW : Signal := ⟨.long, some (1 / 2), some 95, some 110, none⟩

/-- C6 witness: on a fresh 1000-balance portfolio at price 100 both
executors accept the signal and agree on every field except id and entry
time. -/
theorem C6_witness :
    ∃ p1 p2,
      backtest_open_position c6sigW 100 (Portfolio.fresh 1000) "id1" 5 =
        some p1 ∧
      paper_open_position c6sigW 100 (Portfolio.fresh 1000) "id2" 9 =
        some p2 ∧
      p2.side = p1.side ∧ p1.entry_price = 100 ∧ p2.entry_price = 100 ∧
      p1.size_usd = 500 ∧ p2.size_usd = p1.size_usd ∧
      p1.size = 5 ∧ p2.size = p1.size ∧
      p1.stop_loss = 95 ∧ p2.stop_loss = 95 ∧
      p1.take_profit = 110 ∧ p2.take_profit = 110 := by
  have h1 : backtest_open_position c6sigW 100 (Portfolio.fresh 1000)
      "id1" 5 = some ⟨"id1", .long, 100, 5, 5, 500, 95, 110⟩ := by
    simp only [backtest_open_position, c6sigW, Portfolio.fresh,
      Portfolio.equity, Direction.toSide]
    norm_num
  have h2 : paper_open_position c6sigW 100 (Portfolio.fresh 1000)
      "id2" 9 = some ⟨"id2", .long, 100, 9, 5, 500, 95, 110⟩ := by
    simp only [paper_open_position, c6sigW, Portfolio.fresh,
      Portfolio.equity, Direction.toSide]
    norm_num
  obtain ⟨hs1, hs2, he1, he2, hu1, hu2, hz1, hz2, hl1, hl2, ht1, ht2,
      -, -, -, -⟩ :=
    (C6_executor_open_equivalence c6sigW 100 (Portfolio.fresh 1000)
      "id1" "id2" 5 9 (by decide)).2.2 _ _ h1 h2 (1 / 2) 95 110 rfl rfl rfl
  exact ⟨_, _, h1, h2, hs2, he1, he2, rfl, hu2, rfl, hz2, hl1, hl2,
    ht1, ht2⟩

/-! ## Engine (`src/core/engine.py`) -/

/-- `Engine._calculate_warm_up_bars`; Python `max()` raises `ValueError`
on an empty timeframe list, modelled as `none`. -/
def calculate_warm_up_bars (tfs : List Tf) : Option Nat :=
  match tfs.map Tf.minutes with
  | [] => none
  | m :: ms => some (max (ms.foldl max m) 100)

/-- `TimeframeData` — per-timeframe view handed to strategies. -/
structure TimeframeData where
  latest : Candle
  history : List Candle

/-- `MultiTimeframeData` — timeframe-keyed view; `none` stands for
timeframes the aggregator was not constructed with (a dict lookup on them
would raise `KeyError`). -/
def MtfData : Type := Tf → Option TimeframeData

/-- `TimeframeAggregator` state: declared timeframes, history cap, and the
keyed `_history` / `_building` maps. -/
structure AggState where
  timeframes : List Tf
  maxHistory : Nat
  history : Tf → List Candle
  building : Tf → Option AggregatingCandle

/-- `TimeframeAggregator(timeframes=..)` after `__post_init__`: empty
history, no in-progress candles. -/
def AggState.start (tfs : List Tf) (maxH : Nat) : AggState :=
  ⟨tfs, maxH, fun _ => [], fun _ => none⟩

/-- The higher-timeframe body of the `for tf in self.timeframes` loop of
`_process_candle`, expressed through the per-timeframe slice
`processCandleTf`. -/
def AggState.processTf (st : AggState) (c : Candle) (tf : Tf) : AggState :=
  if tf = .m1 then st
  else
    let ts2 := processCandleTf st.maxHistory tf ⟨st.building tf, st.history tf⟩ c
    { st with
      history := fun t => if t = tf then ts2.history else st.history t,
      building := fun t => if t = tf then ts2.building else st.building t }

/-- `TimeframeAggregator._process_candle`. -/
def AggState.process (st : AggState) (c : Candle) : AggState :=
  let st1 :=
    if .m1 ∈ st.timeframes then
      { st with history := fun t =>
          if t = .m1 then appendHistory st.maxHistory (st.history .m1) c
          else st.history t }
    else st
  st.timeframes.foldl (fun s tf => s.processTf c tf) st1

/-- `TimeframeAggregator._build_mtf_data`. -/
def AggState.buildMtf (st : AggState) (latest1m : Candle) : MtfData :=
  fun tf =>
    if tf ∈ st.timeframes then
      some ⟨
        if tf = .m1 then latest1m
        else
          match st.building tf with
          | some b => b.to_candle
          | none =>
              match (st.history tf).getLast? with
              | some lc => lc
              | none => latest1m,
        st.history tf⟩
    else none

/-- Abstract strategy: the declared timeframes, `on_init` and `on_candle`,
threading an explicit strategy state `σ` (Python strategies are objects
with mutable state). -/
structure StrategyModel (σ : Type) where
  timeframes : List Tf
  on_init : MtfData → σ → σ
  on_candle : MtfData → Portfolio → σ → σ × List Signal

/-- The engine-owned mutable state during `run_backtest`: aggregator,
portfolio, strategy state, the backtest executor's `current_time`, the id
supply standing for `Position.generate_id()`, and the equity curve. -/
structure EngineState (σ : Type) where
  agg : AggState
  portfolio : Portfolio
  stratState : σ
  current_time : Nat
  nextId : Nat
  equity_curve : List EquityPoint

/-- `Engine._get_exit_price` — the exact SL or TP level. -/
def get_exit_price (p : Position) (reason : ExitReason) : ℚ :=
  match reason with
  | .stop_loss => p.stop_loss
  | .take_profit => p.take_profit

/-- The monitor's exit reason as a trade `exit_reason`. -/
def ExitReason.toCloseReason : ExitReason → CloseReason
  | .stop_loss => .stop_loss
  | .take_profit => .take_profit

/-- The `for position in list(self.portfolio.positions)` loop of
`Engine._check_sl_tp`: the executor's `close_position` builds the trade at
the exact SL/TP level, then the portfolio records it; a `ValueError` from
`Portfolio.close_position` is `none`. -/
def slTpGo {σ : Type} (c : Candle) :
    EngineState σ → List Position → Option (EngineState σ)
  | st, [] => some st
  | st, p :: rest =>
      match check p c none Tf.m1 with
      | none => slTpGo c st rest
      | some r =>
          let t := build_trade p (get_exit_price p r) st.current_time
            r.toCloseReason
          match st.portfolio.close_position p.id t with
          | none => none
          | some pf2 => slTpGo c { st with portfolio := pf2 } rest

/-- `Engine._check_sl_tp` — snapshot the open positions, close the hit
ones. -/
def checkSlTp {σ : Type} (st : EngineState σ) (c : Candle) :
    Option (EngineState σ) :=
  slTpGo c st st.portfolio.positions

/-- `BacktestExecutor._close_by_signal`. -/
def backtest_close_by_signal (sig : Signal) (price : ℚ) (pf : Portfolio)
    (current_time : Nat) : Option Trade :=
  match sig.position_id with
  | some pid =>
      match pf.get_position pid with
      | none => none
      | some pos => some (build_trade pos price current_time .signal)
  | none =>
      match pf.positions with
      | [] => none
      | pos :: _ => some (build_trade pos price current_time .signal)

/-- `BacktestExecutor.execute`. -/
def backtest_execute (sig : Signal) (price : ℚ) (pf : Portfolio)
    (gen_id : String) (current_time : Nat) : Option (Position ⊕ Trade) :=
  match sig.direction with
  | .long => (backtest_open_position sig price pf gen_id current_time).map .inl
  | .short => (backtest_open_position sig price pf gen_id current_time).map .inl
  | .close => (backtest_close_by_signal sig price pf current_time).map .inr

/-- `Engine._execute_signal` — the executor returns, the engine mutates
the portfolio (open or close); a failing close raises (`none`). -/
def executeSignal {σ : Type} (st : EngineState σ) (sig : Signal)
    (price : ℚ) : Option (EngineState σ) :=
  match backtest_execute sig price st.portfolio (toString st.nextId)
      st.current_time with
  | none => some st
  | some (.inl pos) =>
      some { st with portfolio := st.portfolio.open_position pos,
                     nextId := st.nextId + 1 }
  | some (.inr t) =>
      match st.portfolio.close_position t.id t with
      | none => none
      | some pf2 => some { st with portfolio := pf2 }

/-- The `for signal in signals` loop of the backtest main loop. -/
def executeSignals {σ : Type} :
    EngineState σ → List Signal → ℚ → Option (EngineState σ)
  | st, [], _ => some st
  | st, sig :: rest, price =>
      match executeSignal st sig price with
      | none => none
      | some st2 => executeSignals st2 rest price

/-- The strategy/execution tail of the per-candle step: invoke
`strategy.on_candle` on the (post-SL/TP) portfolio, execute its signals,
then sample the equity curve. -/
def strategyPhase {σ : Type} (strat : StrategyModel σ) (mtf : MtfData)
    (c : Candle) (st : EngineState σ) : Option (EngineState σ) :=
  let pr := strat.on_candle mtf st.portfolio st.stratState
  match executeSignals { st with stratState := pr.1 } pr.2 c.close with
  | none => none
  | some st3 =>
      some { st3 with equity_curve :=
        st3.equity_curve ++ [⟨c.timestamp, st3.portfolio.equity⟩] }

/-- One iteration of the main backtest loop of `Engine.run_backtest`:
aggregate, set the executor clock, update the portfolio price, run the
SL/TP phase, then the strategy / execution / equity-sample phases. -/
def engineStep {σ : Type} (strat : StrategyModel σ) (st : EngineState σ)
    (c : Candle) : Option (EngineState σ) :=
  let st1 : EngineState σ := { st with
    agg := st.agg.process c
    current_time := c.timestamp
    portfolio := st.portfolio.update_price c.close }
  match checkSlTp st1 c with
  | none => none
  | some st2 => strategyPhase strat ((st.agg.process c).buildMtf c) c st2

/-- The `for candle in backtest_candles` loop. -/
def runLoop {σ : Type} (strat : StrategyModel σ) :
    EngineState σ → List Candle → Option (EngineState σ)
  | st, [] => some st
  | st, c :: cs =>
      match engineStep strat st c with
      | none => none
      | some st2 => runLoop strat st2 cs

/-- The position loop of `Engine._close_all_positions`. -/
def closeAllGo {σ : Type} (price : ℚ) (ts : Nat) :
    EngineState σ → List Position → Option (EngineState σ)
  | st, [] => some st
  | st, p :: rest =>
      let t := build_trade p price ts CloseReason.signal
      match st.portfolio.close_position p.id t with
      | none => none
      | some pf2 => closeAllGo price ts { st with portfolio := pf2 } rest

/-- `Engine._close_all_positions` — force-close at end of backtest. -/
def closeAllPositions {σ : Type} (st : EngineState σ) (price : ℚ)
    (ts : Nat) : Option (EngineState σ) :=
  let st1 := { st with current_time := ts }
  closeAllGo price ts st1 st1.portfolio.positions

/-- `BacktestResults` (the fields the claims speak about). -/
structure BacktestResults where
  trades : List Trade
  equity_curve : List EquityPoint
  start_time : Nat
  end_time : Nat
  initial_balance : ℚ
  final_equity : ℚ

/-- `Engine.run_backtest` with `persist = False` and no alerter: fetch is
the given `candles_1m`, split off the warm-up prefix, warm the aggregator
up (all but the last through `warm_up`, the last through `update` whose
snapshot feeds `strategy.on_init`), run the main loop, force-close, and
assemble results.  Returns the results together with the final strategy
state; `none` models an uncaught exception. -/
def run_backtest {σ : Type} (strat : StrategyModel σ) (s0 : σ)
    (candles_1m : List Candle) (initial_balance : ℚ) (maxH : Nat)
    (start end_ : Nat) : Option (BacktestResults × σ) :=
  match candles_1m with
  | [] => some (⟨[], [], start, end_, initial_balance, initial_balance⟩, s0)
  | c0 :: ctail =>
      match calculate_warm_up_bars strat.timeframes with
      | none => none
      | some warm_up_bars =>
          let warm_up_candles := (c0 :: ctail).take warm_up_bars
          match (c0 :: ctail).drop warm_up_bars with
          | [] =>
              some (⟨[], [], c0.timestamp,
                ((c0 :: ctail).getLast (List.cons_ne_nil c0 ctail)).timestamp,
                initial_balance, initial_balance⟩, s0)
          | b0 :: brest =>
              let agg0 := AggState.start strat.timeframes maxH
              let pair :=
                match warm_up_candles.getLast? with
                | none => (agg0, s0)
                | some lastW =>
                    let aggB :=
                      (warm_up_candles.dropLast.foldl AggState.process
                        agg0).process lastW
                    (aggB, strat.on_init (aggB.buildMtf lastW) s0)
              let st0 : EngineState σ :=
                ⟨pair.1, Portfolio.fresh initial_balance, pair.2, 0, 0, []⟩
              match runLoop strat st0 (b0 :: brest) with
              | none => none
              | some stFin =>
                  let lastC := (b0 :: brest).getLast
                    (List.cons_ne_nil b0 brest)
                  match closeAllPositions stFin lastC.close
                      lastC.timestamp with
                  | none => none
                  | some stEnd =>
                      some (⟨stEnd.portfolio.trades, stEnd.equity_curve,
                        b0.timestamp, lastC.timestamp,
                        stEnd.portfolio.initial_balance,
                        stEnd.portfolio.equity⟩, stEnd.stratState)

/-- The executor kind `Engine.run` dispatches on
(`isinstance(self.executor, BacktestExecutor)`). -/
inductive ExecutorKind
  | backtest
  | paper
deriving DecidableEq

/-- `Engine.run` — returns `BacktestResults` for a backtest executor and
raises `NotImplementedError` (modelled as `.error`) for any other
executor, the paper executor included. -/
def engine_run {σ : Type} (kind : ExecutorKind) (strat : StrategyModel σ)
    (s0 : σ) (candles_1m : List Candle) (initial_balance : ℚ) (maxH : Nat)
    (start end_ : Nat) : Except String (Option (BacktestResults × σ)) :=
  match kind with
  | .backtest =>
      match run_backtest strat s0 candles_1m initial_balance maxH
          start end_ with
      | some r => .ok (some r)
      | none => .error "runtime error escaped run_backtest"
  | .paper =>
      .error "NotImplementedError: Forward testing is not yet implemented"

/-- C3 (code bug): the claim (and `run`'s own docstring, and
`tests/test_forward_test.py`) says `Engine.run` with a paper executor runs
the forward-test loop and returns `None`; the code instead raises
`NotImplementedError("Forward testing is not yet implemented")` for every
non-backtest executor, while the backtest branch does return results. -/
theorem C3_run_paper_raises {σ : Type} (strat : StrategyModel σ) (s0 : σ)
    (candles : List Candle) (ib : ℚ) (maxH start end_ : Nat) :
    engine_run ExecutorKind.paper strat s0 candles ib maxH start end_ =
      .error "NotImplementedError: Forward testing is not yet implemented" ∧
    (∀ r, engine_run ExecutorKind.paper strat s0 candles ib maxH
      start end_ ≠ .ok r) ∧
    (∀ res, run_backtest strat s0 candles ib maxH start end_ = some res →
      engine_run ExecutorKind.backtest strat s0 candles ib maxH start end_ =
        .ok (some res)) := by
  refine ⟨rfl, ?_, ?_⟩
  · intro r h
    exact Except.noConfusion h
  · intro res h
    simp [engine_run, h]

theorem filter_ne_of_mem (l : List Position) (p : Position) (hp : p ∈ l) :
    l.filter (fun q => q.id != p.id) ≠ l := by
  intro h
  have := List.filter_eq_self.mp h p hp
  simp at this

theorem close_position_some_of_mem (pf : Portfolio) (p : Position)
    (t : Trade) (hp : p ∈ pf.positions) :
    pf.close_position p.id t = some { pf with
      positions := pf.positions.filter (fun q => q.id != p.id)
      trades := pf.trades ++ [t]
      balance := pf.balance + t.size_usd + t.pnl } := by
  rw [Portfolio.close_position]
  have hne : pf.positions.filter (fun q => q.id != p.id) ≠
      pf.positions := filter_ne_of_mem _ p hp
  have hlen : ¬ (pf.positions.filter (fun q => q.id != p.id)).length =
      pf.positions.length := by
    intro h
    exact hne ((List.filter_sublist _).eq_of_length h)
  simp [hlen]

/-- The trade that the SL/TP phase records for a position hit by
the candle (`none` when the monitor reports no hit). -/
def slTradeFor (current_time : Nat) (c : Candle) (p : Position) :
    Option Trade :=
  (check p c none Tf.m1).map
    (fun r => build_trade p (get_exit_price p r) current_time
      r.toCloseReason)

theorem slTpGo_spec {σ : Type} (c : Candle) :
    ∀ (todo : List Position) (st : EngineState σ),
      List.Sublist todo st.portfolio.positions →
      (st.portfolio.positions.map (fun p => p.id)).Nodup →
      ∃ st2, slTpGo c st todo = some st2 ∧
        st2.portfolio.positions = st.portfolio.positions.filter
          (fun x => !((todo.filter
            (fun q => (check q c none Tf.m1).isSome)).any
              (fun q => q.id == x.id))) ∧
        st2.portfolio.trades = st.portfolio.trades ++
          todo.filterMap (slTradeFor st.current_time c) ∧
        st2.current_time = st.current_time ∧
        st2.stratState = st.stratState ∧
        st2.agg = st.agg ∧
        st2.equity_curve = st.equity_curve := by
  intro todo
  induction todo with
  | nil =>
      intro st hsub hnd
      refine ⟨st, rfl, by simp, by simp [slTradeFor], rfl, rfl, rfl, rfl⟩
  | cons p rest ih =>
      intro st hsub hnd
      have hpmem : p ∈ st.portfolio.positions :=
        hsub.subset (List.mem_cons_self p rest)
      have hrest : List.Sublist rest st.portfolio.positions :=
        List.sublist_of_cons_sublist hsub
      cases hchk : check p c none Tf.m1 with
      | none =>
          obtain ⟨st2, hrun, hpos, htr, hct, hss, hag, hec⟩ :=
            ih st hrest hnd
          have hfil : (p :: rest).filter
              (fun q => (check q c none Tf.m1).isSome) =
              rest.filter (fun q => (check q c none Tf.m1).isSome) := by
            simp [List.filter_cons, hchk]
          refine ⟨st2, ?_, ?_, ?_, hct, hss, hag, hec⟩
          · simp only [slTpGo, hchk]
            exact hrun
          · rw [hpos, hfil]
          · rw [htr]
            simp [List.filterMap_cons, slTradeFor, hchk]
      | some r =>
          have hndtodo : ((p :: rest).map (fun q => q.id)).Nodup :=
            hnd.sublist (hsub.map (fun q => q.id))
          have hpid : p.id ∉ rest.map (fun q => q.id) :=
            (List.nodup_cons.mp hndtodo).1
          have hrestid : ∀ q ∈ rest, (q.id != p.id) = true := by
            intro q hq
            have : q.id ≠ p.id := by
              intro he
              exact hpid (he ▸ List.mem_map_of_mem (fun x => x.id) hq)
            simpa using this
          have hclose := close_position_some_of_mem st.portfolio p
            (build_trade p (get_exit_price p r) st.current_time
              r.toCloseReason) hpmem
          have hrestsub : List.Sublist rest
              (st.portfolio.positions.filter (fun q => q.id != p.id)) := by
            have h1 := hrest.filter (fun q => q.id != p.id)
            rwa [List.filter_eq_self.mpr hrestid] at h1
          have hndfil : ((st.portfolio.positions.filter
              (fun q => q.id != p.id)).map (fun q => q.id)).Nodup :=
            hnd.sublist (List.Sublist.map (fun q : Position => q.id)
              (List.filter_sublist st.portfolio.positions))
          obtain ⟨st2, hrun, hpos, htr, hct, hss, hag, hec⟩ :=
            ih { st with portfolio := { st.portfolio with
              positions := st.portfolio.positions.filter
                (fun q => q.id != p.id)
              trades := st.portfolio.trades ++
                [build_trade p (get_exit_price p r) st.current_time
                  r.toCloseReason]
              balance := st.portfolio.balance +
                (build_trade p (get_exit_price p r) st.current_time
                  r.toCloseReason).size_usd +
                (build_trade p (get_exit_price p r) st.current_time
                  r.toCloseReason).pnl } } hrestsub hndfil
          refine ⟨st2, ?_, ?_, ?_, hct, hss, hag, hec⟩
          · simp only [slTpGo, hchk, hclose]
            exact hrun
          · rw [hpos]
            show _ = st.portfolio.positions.filter _
            rw [List.filter_filter]
            apply List.filter_congr
            intro x _
            have hhit : (p :: rest).filter
                (fun q => (check q c none Tf.m1).isSome) =
                p :: rest.filter (fun q => (check q c none Tf.m1).isSome) := by
              simp [List.filter_cons, hchk]
            rw [hhit, List.any_cons, Bool.not_or]
            by_cases he : x.id = p.id
            · simp [he, bne]
            · have he2 : ¬ p.id = x.id := fun h => he h.symm
              simp only [bne, beq_eq_false_iff_ne, ne_eq,
                Bool.and_comm]
              have hb1 : (x.id == p.id) = false :=
                beq_eq_false_iff_ne.mpr he
              have hb2 : (p.id == x.id) = false :=
                beq_eq_false_iff_ne.mpr he2
              rw [hb1, hb2]
          · rw [htr]
            show st.portfolio.trades ++ _ ++ _ = _
            rw [List.filterMap_cons]
            have : slTradeFor st.current_time c p =
                some (build_trade p (get_exit_price p r) st.current_time
                  r.toCloseReason) := by
              simp [slTradeFor, hchk]
            rw [this, List.append_assoc]
            rfl

/-- C4: in the per-candle step, the SL/TP phase completes before the
strategy phase: every open position the monitor reports as hit by candle
`C` is closed — at an exit price exactly equal to its `stop_loss` or
`take_profit` level, never the candle close — and removed from the
portfolio before `strategy.on_candle` is invoked for `C` (the strategy
phase consumes the post-SL/TP state `st2`); unhit positions survive the
phase. -/
theorem C4_sl_tp_before_strategy {σ : Type} (strat : StrategyModel σ)
    (st : EngineState σ) (c : Candle)
    (hnodup : (st.portfolio.positions.map (fun p => p.id)).Nodup) :
    ∃ st2,
      checkSlTp { st with
        agg := st.agg.process c
        current_time := c.timestamp
        portfolio := st.portfolio.update_price c.close } c = some st2 ∧
      engineStep strat st c =
        strategyPhase strat ((st.agg.process c).buildMtf c) c st2 ∧
      (∀ p ∈ st.portfolio.positions, ∀ r, check p c none Tf.m1 = some r →
        (∀ q ∈ st2.portfolio.positions, q.id ≠ p.id) ∧
        ∃ t ∈ st2.portfolio.trades, t.id = p.id ∧
          t.exit_price = (match r with
            | ExitReason.stop_loss => p.stop_loss
            | ExitReason.take_profit => p.take_profit) ∧
          t.exit_reason = r.toCloseReason) ∧
      (∀ p ∈ st.portfolio.positions, check p c none Tf.m1 = none →
        p ∈ st2.portfolio.positions) := by
  obtain ⟨st2, hrun, hpos, htr, hct, hss, hag, hec⟩ :=
    slTpGo_spec c st.portfolio.positions
      { st with
        agg := st.agg.process c
        current_time := c.timestamp
        portfolio := st.portfolio.update_price c.close }
      (List.Sublist.refl _) hnodup
  refine ⟨st2, hrun, ?_, ?_, ?_⟩
  · have hcheck : checkSlTp { st with
        agg := st.agg.process c
        current_time := c.timestamp
        portfolio := st.portfolio.update_price c.close } c = some st2 := hrun
    simp only [engineStep]
    rw [hcheck]
  · intro p hp r hchk
    constructor
    · intro q hq
      rw [hpos] at hq
      have hpred := (List.mem_filter.mp hq).2
      have hall : ∀ x ∈ st.portfolio.positions,
          (check x c none Tf.m1).isSome = true → ¬ x.id = q.id := by
        simpa using hpred
      intro he
      exact hall p hp (by simp [hchk]) he.symm
    · refine ⟨build_trade p (get_exit_price p r) c.timestamp
        r.toCloseReason, ?_, rfl, ?_, rfl⟩
      · rw [htr]
        apply List.mem_append_right
        apply List.mem_filterMap.mpr
        exact ⟨p, hp, by simp [slTradeFor, hchk]⟩
      · cases r <;> rfl
  · intro p hp hchk
    rw [hpos]
    apply List.mem_filter.mpr
    refine ⟨hp, ?_⟩
    have hall : ∀ x ∈ st.portfolio.positions,
        (check x c none Tf.m1).isSome = true → ¬ x.id = p.id := by
      intro x hx hhit he
      have hxp : x = p := List.inj_on_of_nodup_map hnodup hx hp he
      rw [hxp, hchk] at hhit
      simp at hhit
    simpa using hall

/-- C4 witness: long position with SL 95 hit by the candle (low 90). -/
def c4posAW : Position := ⟨"A", .long, 100, 0, 1, 100, 95, 110⟩

/-- C4 witness: long position hit by neither level. -/
def c4posBW : Position := ⟨"B", .long, 100, 0, 1, 100, 80, 200⟩

/-- The candle of the C4 witness (low 90, close 99). -/
def c4candleW : Candle := ⟨7, 100, 105, 90, 99, 1, 0, 0⟩

/-- A strategy that never trades, for the C4 witness. -/
def c4stratW : StrategyModel Unit :=
  ⟨[Tf.m1], fun _ s => s, fun _ _ s => (s, [])⟩

/-- The engine state of the C4 witness, holding both positions. -/
def c4stW : EngineState Unit :=
  ⟨AggState.start [Tf.m1] 10,
   { initial_balance := 1000, balance := 800,
     positions := [c4posAW, c4posBW], trades := [] },
   (), 0, 0, []⟩

/-- C4 witness: in the step for the candle, the hit position `"A"` is
closed at exactly its stop level 95 (not the close 99) and removed before
the strategy phase runs, while the unhit position `"B"` survives. -/
theorem C4_witness :
    ∃ st2,
      engineStep c4stratW c4stW c4candleW =
        strategyPhase c4stratW
          ((c4stW.agg.process c4candleW).buildMtf c4candleW) c4candleW
          st2 ∧
      (∀ q ∈ st2.portfolio.positions, q.id ≠ c4posAW.id) ∧
      (∃ t ∈ st2.portfolio.trades, t.id = c4posAW.id ∧
        t.exit_price = 95 ∧ t.exit_reason = CloseReason.stop_loss) ∧
      c4posBW ∈ st2.portfolio.positions := by
  obtain ⟨st2, hchk, hstep, hhit, hkeep⟩ :=
    C4_sl_tp_before_strategy c4stratW c4stW c4candleW (by decide)
  obtain ⟨hrem, t, htmem, htid, htp, htr⟩ :=
    hhit c4posAW (by decide) ExitReason.stop_loss (by decide)
  exact ⟨st2, hstep, hrem, ⟨t, htmem, htid, htp, htr⟩,
    hkeep c4posBW (by decide) (by decide)⟩

/-- A strategy that records the snapshot its `on_init` receives and never
trades — an observer for the engine's warm-up behaviour. -/
def observerStrategy (tfs : List Tf) : StrategyModel (Option MtfData) :=
  ⟨tfs, fun mtf _ => some mtf, fun _ _ s => (s, [])⟩

theorem observer_step (tfs : List Tf)
    (st : EngineState (Option MtfData)) (c : Candle)
    (hpos : st.portfolio.positions = []) :
    engineStep (observerStrategy tfs) st c = some
      { st with
        agg := st.agg.process c
        current_time := c.timestamp
        portfolio := st.portfolio.update_price c.close
        stratState := st.stratState
        equity_curve := st.equity_curve ++
          [⟨c.timestamp, (st.portfolio.update_price c.close).equity⟩] } := by
  have hP : (st.portfolio.update_price c.close).positions = [] := hpos
  simp only [engineStep, checkSlTp]
  rw [hP]
  simp only [slTpGo, strategyPhase, observerStrategy, executeSignals]

theorem observer_loop (tfs : List Tf) :
    ∀ (cs : List Candle) (st : EngineState (Option MtfData)),
      st.portfolio.positions = [] →
      ∃ st2, runLoop (observerStrategy tfs) st cs = some st2 ∧
        st2.portfolio.positions = [] ∧
        st2.portfolio.trades = st.portfolio.trades ∧
        st2.portfolio.balance = st.portfolio.balance ∧
        st2.portfolio.initial_balance = st.portfolio.initial_balance ∧
        st2.stratState = st.stratState ∧
        st2.equity_curve = st.equity_curve ++
          cs.map (fun c => ⟨c.timestamp, st.portfolio.balance⟩) := by
  intro cs
  induction cs with
  | nil =>
      intro st hpos
      exact ⟨st, rfl, hpos, rfl, rfl, rfl, rfl, by simp⟩
  | cons c rest ih =>
      intro st hpos
      have hstep := observer_step tfs st c hpos
      have heqv : (st.portfolio.update_price c.close).equity =
          st.portfolio.balance := by
        simp [Portfolio.equity, Portfolio.update_price, hpos]
      obtain ⟨st2, hrun, h1, h2, h3, h4, h5, h6⟩ := ih
        { st with
          agg := st.agg.process c
          current_time := c.timestamp
          portfolio := st.portfolio.update_price c.close
          stratState := st.stratState
          equity_curve := st.equity_curve ++
            [⟨c.timestamp, (st.portfolio.update_price c.close).equity⟩] }
        hpos
      refine ⟨st2, ?_, h1, h2, h3, h4, h5, ?_⟩
      · simp only [runLoop, hstep]
        exact hrun
      · rw [h6, heqv]
        simp [Portfolio.update_price]

theorem closeAll_empty {σ : Type} (st : EngineState σ) (price : ℚ)
    (ts : Nat) (h : st.portfolio.positions = []) :
    closeAllPositions st price ts = some { st with current_time := ts } := by
  simp only [closeAllPositions]
  rw [h]
  rfl

theorem foldl_dropLast_getLast {α β : Type} (f : β → α → β) :
    ∀ (l : List α) (x : α), l.getLast? = some x →
      ∀ b, f (l.dropLast.foldl f b) x = l.foldl f b := by
  intro l
  induction l with
  | nil => intro x hx; cases hx
  | cons a t ih =>
      intro x hx b
      cases t with
      | nil =>
          simp at hx
          subst hx
          rfl
      | cons a2 t2 =>
          have hx2 : (a2 :: t2).getLast? = some x := by
            simpa [List.getLast?_cons_cons] using hx
          have := ih x hx2 (f b a)
          simpa [List.dropLast_cons₂, List.foldl_cons] using this

theorem drop_ne_nil_of_lt {α : Type} (l : List α) (n : Nat)
    (h : n < l.length) : l.drop n ≠ [] := by
  intro hd
  have := List.length_drop n l
  rw [hd] at this
  simp at this
  omega

/-- C7: for a strategy declaring a non-empty timeframe list,
`run_backtest` reserves the first `max(100, m)` fetched 1m candles as
warm-up (`m` the largest declared minute count); if the warm-up prefix
exhausts the fetched data the backtest returns empty results (no trades,
empty equity curve, final equity = initial balance, strategy untouched);
otherwise the warm-up candles are fed through the aggregator only — the
observer strategy receives exactly the snapshot after the last warm-up
candle in `on_init`, is never fed a warm-up candle in `on_candle`, and the
equity curve holds one point per post-warm-up candle. -/
theorem C7_warm_up (tf0 : Tf) (tfs : List Tf) (candles : List Candle)
    (ib : ℚ) (maxH start end_ : Nat) (s0 : Option MtfData) :
    (calculate_warm_up_bars (tf0 :: tfs) =
      some (max 100 ((tfs.map Tf.minutes).foldl max tf0.minutes))) ∧
    (∀ {σ : Type} (strat : StrategyModel σ) (s0' : σ) (wub : Nat),
      calculate_warm_up_bars strat.timeframes = some wub →
      candles.length ≤ wub →
      ∃ r, run_backtest strat s0' candles ib maxH start end_ =
          some (r, s0') ∧
        r.trades = [] ∧ r.equity_curve = [] ∧
        r.initial_balance = ib ∧ r.final_equity = ib) ∧
    (∀ wub, calculate_warm_up_bars (tf0 :: tfs) = some wub →
      0 < wub → wub < candles.length →
      ∃ r lastW,
        (candles.take wub).getLast? = some lastW ∧
        run_backtest (observerStrategy (tf0 :: tfs)) s0 candles ib maxH
            start end_ = some (r,
          some (((candles.take wub).foldl AggState.process
            (AggState.start (tf0 :: tfs) maxH)).buildMtf lastW)) ∧
        r.trades = [] ∧
        r.equity_curve = (candles.drop wub).map
          (fun c => ⟨c.timestamp, ib⟩) ∧
        r.initial_balance = ib ∧ r.final_equity = ib) := by
  refine ⟨?_, ?_, ?_⟩
  · simp only [calculate_warm_up_bars, List.map_cons]
    rw [Nat.max_comm]
  · intro σ strat s0' wub hwub hlen
    cases candles with
    | nil =>
        exact ⟨⟨[], [], start, end_, ib, ib⟩, by simp [run_backtest],
          rfl, rfl, rfl, rfl⟩
    | cons c0 ctail =>
        have hdrop : (c0 :: ctail).drop wub = [] :=
          List.drop_eq_nil_of_le hlen
        refine ⟨⟨[], [], c0.timestamp,
          ((c0 :: ctail).getLast (List.cons_ne_nil c0 ctail)).timestamp,
          ib, ib⟩, ?_, rfl, rfl, rfl, rfl⟩
        simp only [run_backtest, hwub, hdrop]
  · intro wub hwub hpos hlen
    cases candles with
    | nil => simp at hlen
    | cons c0 ctail =>
        have hdropne : (c0 :: ctail).drop wub ≠ [] :=
          drop_ne_nil_of_lt _ wub hlen
        rcases hdrop : (c0 :: ctail).drop wub with _ | ⟨b0, brest⟩
        · exact absurd hdrop hdropne
        · have htakene : (c0 :: ctail).take wub ≠ [] := by
            intro ht
            have := congrArg List.length ht
            simp [List.length_take] at this
            omega
          rcases hlast : ((c0 :: ctail).take wub).getLast? with _ | lastW
          · rw [List.getLast?_eq_none_iff] at hlast
            exact absurd hlast htakene
          · have hfold :
                (((c0 :: ctail).take wub).dropLast.foldl AggState.process
                    (AggState.start (tf0 :: tfs) maxH)).process lastW =
                  ((c0 :: ctail).take wub).foldl AggState.process
                    (AggState.start (tf0 :: tfs) maxH) :=
              foldl_dropLast_getLast AggState.process _ lastW hlast _
            obtain ⟨stFin, hloop, hfin1, hfin2, hfin3, hfin4, hfin5,
              hfin6⟩ := observer_loop (tf0 :: tfs) (b0 :: brest)
              ⟨((((c0 :: ctail).take wub).dropLast.foldl AggState.process
                  (AggState.start (tf0 :: tfs) maxH)).process lastW),
               Portfolio.fresh ib,
               (observerStrategy (tf0 :: tfs)).on_init
                 (((((c0 :: ctail).take wub).dropLast.foldl
                   AggState.process (AggState.start (tf0 :: tfs)
                     maxH)).process lastW).buildMtf lastW) s0,
               0, 0, []⟩ rfl
            have hclose := closeAll_empty stFin
              ((b0 :: brest).getLast (List.cons_ne_nil b0 brest)).close
              ((b0 :: brest).getLast (List.cons_ne_nil b0 brest)).timestamp
              hfin1
            have hfinaleq : stFin.portfolio.equity =
                stFin.portfolio.balance := by
              simp [Portfolio.equity, hfin1]
            refine ⟨⟨stFin.portfolio.trades, stFin.equity_curve,
              b0.timestamp,
              ((b0 :: brest).getLast (List.cons_ne_nil b0 brest)).timestamp,
              stFin.portfolio.initial_balance, stFin.portfolio.equity⟩,
              lastW, rfl, ?_, ?_, ?_, ?_, ?_⟩
            · have htfs : (observerStrategy (tf0 :: tfs)).timeframes =
                  tf0 :: tfs := rfl
              simp only [run_backtest, htfs, hwub, hdrop, hlast]
              rw [hloop]
              simp only [hclose, Option.some.injEq, Prod.mk.injEq]
              constructor
              · trivial
              · rw [hfin5]
                simp only [observerStrategy, hfold]
            · simpa [Portfolio.fresh] using hfin2
            · rw [hfin6]
              simp [Portfolio.fresh]
            · simpa [Portfolio.fresh] using hfin4
            · rw [hfinaleq, hfin3]
              rfl

/-- Five flat 1m candles — fewer than the 100-bar warm-up (C7 witness). -/
def c7smallW : List Candle :=
  (List.range 5).map (fun i => ⟨i, 1, 1, 1, 1, 1, 0, 0⟩)

/-- 101 flat 1m candles — one more than the warm-up (C7 witness). -/
def c7bigW : List Candle :=
  (List.range 101).map (fun i => ⟨i, 1, 1, 1, 1, 1, 0, 0⟩)

/-- C7 witness: with only `1m` declared the warm-up is 100 bars; 5 fetched
candles are exhausted by warm-up and give empty results; 101 candles leave
one main-loop candle, `on_init` sees the aggregator state after the 100
warm-up candles, and the equity curve has exactly one point. -/
theorem C7_witness :
    calculate_warm_up_bars [Tf.m1] = some 100 ∧
    (∃ r, run_backtest (observerStrategy [Tf.m1]) none c7smallW 1000 10
        0 99 = some (r, none) ∧
      r.trades = [] ∧ r.equity_curve = [] ∧
      r.initial_balance = 1000 ∧ r.final_equity = 1000) ∧
    (∃ r lastW,
      (c7bigW.take 100).getLast? = some lastW ∧
      run_backtest (observerStrategy [Tf.m1]) none c7bigW 1000 10 0 100 =
        some (r, some (((c7bigW.take 100).foldl AggState.process
          (AggState.start [Tf.m1] 10)).buildMtf lastW)) ∧
      r.trades = [] ∧
      r.equity_curve = (c7bigW.drop 100).map
        (fun c => ⟨c.timestamp, 1000⟩) ∧
      r.initial_balance = 1000 ∧ r.final_equity = 1000) := by
  refine ⟨rfl, ?_, ?_⟩
  · exact (C7_warm_up Tf.m1 [] c7smallW 1000 10 0 99 none).2.1
      (observerStrategy [Tf.m1]) none 100 rfl (by simp [c7smallW])
  · exact (C7_warm_up Tf.m1 [] c7bigW 1000 10 0 100 none).2.2 100 rfl
      (by norm_num) (by simp [c7bigW])

end Jesse
